import Mathlib

/-!
Shallow embedding of the `omfj/todo` terminal task tracker, centred on the
hierarchical task projection (`App::build_task_hierarchy` /
`App::add_task_and_children` in `todo-tui/src/ui.rs`), the cursor/selection
logic, and the orchestration of Store calls.

Machine integers (`i64`, `usize`) are modelled as `Int` / `Nat`;
`DateTime<Utc>` timestamps are modelled as `Int` (only their ordering is
ever used).  `Vec::sort_by_key` is a stable sort and is modelled by
`List.insertionSort` with `≤` on the key, which is likewise stable.  The
recursive flattening of `add_task_and_children` is general recursion in
Rust; it is embedded with an explicit fuel parameter, `none` marking fuel
exhaustion (the claim about termination is then: enough fuel exists).
-/

namespace Todo

/-- Mirror of `struct Task` in `src/models.rs` / `todo-core`. -/
structure Task where
  id : Int
  title : String
  description : Option String
  completed : Bool
  workspace_id : Int
  parent_task_id : Option Int
  created_at : Int
  updated_at : Int
deriving DecidableEq, Repr

/-- Mirror of `struct Workspace` in `src/models.rs`. -/
structure Workspace where
  id : Int
  name : String
  created_at : Int
  updated_at : Int
deriving DecidableEq, Repr

/-- Mirror of `struct TaskDisplay` in `todo-tui/src/ui.rs` (lines 19-24). -/
structure TaskDisplay where
  task : Task
  level : Nat
  index : Nat
deriving DecidableEq, Repr

/-- `tasks.sort_by_key(|t| t.created_at)`: Rust's `sort_by_key` is stable;
`List.insertionSort` with `≤` on the key is a stable sort as well, so the two
agree as functions. -/
def sortByCreated (l : List Task) : List Task :=
  l.insertionSort (fun a b => a.created_at ≤ b.created_at)

/-- The child list computed at the top of `add_task_and_children`
(lines 145-150): all tasks whose `parent_task_id` points at `id`,
sorted by creation time. -/
def childrenOf (all_tasks : List Task) (id : Int) : List Task :=
  sortByCreated (all_tasks.filter (fun t => t.parent_task_id == some id))

/-- The incomplete children (lines 152-153). -/
def incompleteChildrenOf (all_tasks : List Task) (id : Int) : List Task :=
  (childrenOf all_tasks id).filter (fun t => !t.completed)

/-- The completed children (lines 154-155). -/
def completedChildrenOf (all_tasks : List Task) (id : Int) : List Task :=
  (childrenOf all_tasks id).filter (fun t => t.completed)

/-- The sequence of recursive calls issued for the children of a task with
identifier `id`: incomplete children first, then completed children
(lines 157-163). -/
def procChildren (all_tasks : List Task) (id : Int) : List Task :=
  incompleteChildrenOf all_tasks id ++ completedChildrenOf all_tasks id

/-- A `for task in … { self.add_task_and_children(…) }` loop over a list of
tasks, with `f` the body applied to each task at the given level, threading
the `index` counter and accumulating the pushed rows.  Used for the two
child loops of `add_task_and_children` (lines 157-163) and the two root
loops of `build_task_hierarchy` (lines 122-128). -/
def taskLoop (f : Task → Nat → Nat → Option (List TaskDisplay × Nat)) :
    List Task → Nat → Nat → Option (List TaskDisplay × Nat)
  | [], _, index => some ([], index)
  | c :: cs', level, index =>
    match f c level index with
    | none => none
    | some (rows₁, index₁) =>
      match taskLoop f cs' level index₁ with
      | none => none
      | some (rows₂, index₂) => some (rows₁ ++ rows₂, index₂)

/-- `App::add_task_and_children` (`todo-tui/src/ui.rs` lines 131-164),
embedded with fuel.  It returns the rows pushed for `task`'s subtree and the
value of the `index` counter afterwards; `none` means the fuel ran out
(the Rust original would still be recursing). -/
def add_task_and_children (all_tasks : List Task) :
    Nat → Task → Nat → Nat → Option (List TaskDisplay × Nat)
  | 0, _, _, _ => none
  | fuel + 1, task, level, index =>
    match taskLoop (fun c l i => add_task_and_children all_tasks fuel c l i)
        (procChildren all_tasks task.id) (level + 1) (index + 1) with
    | none => none
    | some (rows, index') =>
      some (⟨task, level, index⟩ :: rows, index')

/-- The root lists of `build_task_hierarchy` (lines 106-118): incomplete
roots and completed roots, each sorted by creation time.  A root is a task
with `parent_task_id == None`. -/
def rootTasks (tasks : List Task) : List Task :=
  sortByCreated (tasks.filter (fun t => !t.completed && t.parent_task_id.isNone))
    ++ sortByCreated (tasks.filter (fun t => t.completed && t.parent_task_id.isNone))

/-- `App::build_task_hierarchy` (`todo-tui/src/ui.rs` lines 102-129),
embedded with fuel: clears `task_displays`, then emits each incomplete root
followed by its subtree, then each completed root, sharing one running
`index` counter starting at 0. -/
def build_task_hierarchy (tasks : List Task) (fuel : Nat) :
    Option (List TaskDisplay) :=
  match taskLoop (fun c l i => add_task_and_children tasks fuel c l i)
      (rootTasks tasks) 0 0 with
  | none => none
  | some (rows, _) => some rows

/-- The parent edge relation of one task set: `p` is the in-set parent of
`c`.  This is the relation `add_task_and_children` recurses along: `c` shows
up in the child filter of `p`. -/
def edge (tasks : List Task) (p c : Task) : Prop :=
  p ∈ tasks ∧ c ∈ tasks ∧ c.parent_task_id = some p.id

/-- The parent relation restricted to the task set is acyclic. -/
def Acyclic (tasks : List Task) : Prop :=
  ∀ t, ¬ Relation.TransGen (edge tasks) t t

/-! ### Inversion lemmas for the loop and the recursion -/

theorem taskLoop_nil (f : Task → Nat → Nat → Option (List TaskDisplay × Nat))
    (l i : Nat) : taskLoop f [] l i = some ([], i) := rfl

theorem taskLoop_cons_eq_some {f : Task → Nat → Nat → Option (List TaskDisplay × Nat)}
    {c : Task} {cs : List Task} {l i : Nat} {rows : List TaskDisplay} {i' : Nat} :
    taskLoop f (c :: cs) l i = some (rows, i') ↔
    ∃ rows₁ i₁ rows₂, f c l i = some (rows₁, i₁) ∧
      taskLoop f cs l i₁ = some (rows₂, i') ∧ rows = rows₁ ++ rows₂ := by
  constructor
  · intro h
    cases h₁ : f c l i with
    | none => simp only [taskLoop, h₁] at h; exact Option.noConfusion h
    | some v₁ =>
      obtain ⟨rows₁, i₁⟩ := v₁
      cases h₂ : taskLoop f cs l i₁ with
      | none => simp only [taskLoop, h₁, h₂] at h; exact Option.noConfusion h
      | some v₂ =>
        obtain ⟨rows₂, i₂⟩ := v₂
        simp only [taskLoop, h₁, h₂, Option.some.injEq, Prod.mk.injEq] at h
        obtain ⟨h₃, h₄⟩ := h
        subst h₄
        subst h₃
        exact ⟨rows₁, i₁, rows₂, rfl, h₂, rfl⟩
  · rintro ⟨rows₁, i₁, rows₂, h₁, h₂, rfl⟩
    simp only [taskLoop, h₁, h₂]

theorem add_task_zero (all_tasks : List Task) (task : Task) (level index : Nat) :
    add_task_and_children all_tasks 0 task level index = none := rfl

theorem add_task_succ_eq_some {all_tasks : List Task} {fuel : Nat} {task : Task}
    {level index : Nat} {rows : List TaskDisplay} {i' : Nat} :
    add_task_and_children all_tasks (fuel + 1) task level index = some (rows, i') ↔
    ∃ rows₁, taskLoop (fun c l i => add_task_and_children all_tasks fuel c l i)
        (procChildren all_tasks task.id) (level + 1) (index + 1) = some (rows₁, i') ∧
      rows = ⟨task, level, index⟩ :: rows₁ := by
  constructor
  · intro h
    cases h₁ : taskLoop (fun c l i => add_task_and_children all_tasks fuel c l i)
        (procChildren all_tasks task.id) (level + 1) (index + 1) with
    | none =>
      simp only [add_task_and_children, h₁] at h
      exact Option.noConfusion h
    | some v₁ =>
      obtain ⟨rows₁, i₁⟩ := v₁
      simp only [add_task_and_children, h₁, Option.some.injEq, Prod.mk.injEq] at h
      obtain ⟨h₃, h₄⟩ := h
      subst h₄
      subst h₃
      exact ⟨rows₁, rfl, rfl⟩
  · rintro ⟨rows₁, h₁, rfl⟩
    simp only [add_task_and_children, h₁]

theorem build_eq_some {tasks : List Task} {fuel : Nat} {out : List TaskDisplay} :
    build_task_hierarchy tasks fuel = some out ↔
    ∃ i', taskLoop (fun c l i => add_task_and_children tasks fuel c l i)
      (rootTasks tasks) 0 0 = some (out, i') := by
  constructor
  · intro h
    cases h₁ : taskLoop (fun c l i => add_task_and_children tasks fuel c l i)
        (rootTasks tasks) 0 0 with
    | none =>
      simp only [build_task_hierarchy, h₁] at h
      exact Option.noConfusion h
    | some v₁ =>
      obtain ⟨rows, i₁⟩ := v₁
      simp only [build_task_hierarchy, h₁, Option.some.injEq] at h
      subst h
      exact ⟨i₁, rfl⟩
  · rintro ⟨i', h₁⟩
    simp only [build_task_hierarchy, h₁]

/-! ### A generic "all rows" combinator for the loop -/

/-- If every successful body call on a member of `cs` only produces rows
satisfying `P`, then every row of the loop satisfies `P`. -/
theorem taskLoop_forall (P : TaskDisplay → Prop)
    {f : Task → Nat → Nat → Option (List TaskDisplay × Nat)} :
    ∀ {cs : List Task} {l i : Nat} {rows : List TaskDisplay} {i' : Nat},
    (∀ c ∈ cs, ∀ l₀ i₀ rows₀ i₀', f c l₀ i₀ = some (rows₀, i₀') →
      ∀ r ∈ rows₀, P r) →
    taskLoop f cs l i = some (rows, i') → ∀ r ∈ rows, P r := by
  intro cs
  induction cs with
  | nil =>
    intro l i rows i' _ h
    rw [taskLoop_nil] at h
    simp only [Option.some.injEq, Prod.mk.injEq] at h
    rw [← h.1]
    intro r hr
    exact absurd hr (List.not_mem_nil r)
  | cons c cs ih =>
    intro l i rows i' hbody h
    rw [taskLoop_cons_eq_some] at h
    obtain ⟨rows₁, i₁, rows₂, h₁, h₂, rfl⟩ := h
    intro r hr
    rcases List.mem_append.1 hr with hr₁ | hr₂
    · exact hbody c (List.mem_cons_self c cs) l i rows₁ i₁ h₁ r hr₁
    · exact ih (fun d hd => hbody d (List.mem_cons_of_mem c hd)) h₂ r hr₂

/-! ### Index bookkeeping (claim C10) -/

/-- The rows carry consecutive `index` fields starting at `i`. -/
def indexedFrom (rows : List TaskDisplay) (i : Nat) : Prop :=
  ∀ k (hk : k < rows.length), (rows.get ⟨k, hk⟩).index = i + k

theorem indexedFrom_nil (i : Nat) : indexedFrom [] i := by
  intro k hk
  exact absurd hk (by simp)

theorem indexedFrom_append {rows₁ rows₂ : List TaskDisplay} {i : Nat}
    (h₁ : indexedFrom rows₁ i) (h₂ : indexedFrom rows₂ (i + rows₁.length)) :
    indexedFrom (rows₁ ++ rows₂) i := by
  intro k hk
  by_cases hlt : k < rows₁.length
  · rw [List.get_append k hlt]
    exact h₁ k hlt
  · have hk₂ : k - rows₁.length < rows₂.length := by
      rw [List.length_append] at hk
      omega
    rw [List.get_append_right rows₁ rows₂ (le_of_not_lt hlt)]
    · have := h₂ (k - rows₁.length) hk₂
      omega

theorem indexedFrom_cons {rows : List TaskDisplay} {t : Task} {l i : Nat}
    (h : indexedFrom rows (i + 1)) :
    indexedFrom (⟨t, l, i⟩ :: rows) i := by
  intro k hk
  cases k with
  | zero => simp
  | succ k' =>
    simp only [List.length_cons, Nat.succ_lt_succ_iff] at hk
    have := h k' hk
    simp only [List.get_cons_succ]
    omega

/-- Loop version of the index invariant, given it for the body. -/
theorem taskLoop_indexed {f : Task → Nat → Nat → Option (List TaskDisplay × Nat)}
    (hf : ∀ c l i rows i', f c l i = some (rows, i') →
      i' = i + rows.length ∧ indexedFrom rows i) :
    ∀ {cs : List Task} {l i : Nat} {rows : List TaskDisplay} {i' : Nat},
    taskLoop f cs l i = some (rows, i') →
    i' = i + rows.length ∧ indexedFrom rows i := by
  intro cs
  induction cs with
  | nil =>
    intro l i rows i' h
    rw [taskLoop_nil] at h
    simp only [Option.some.injEq, Prod.mk.injEq] at h
    rw [← h.1, ← h.2]
    exact ⟨by simp, indexedFrom_nil i⟩
  | cons c cs ih =>
    intro l i rows i' h
    rw [taskLoop_cons_eq_some] at h
    obtain ⟨rows₁, i₁, rows₂, h₁, h₂, rfl⟩ := h
    obtain ⟨hl₁, hi₁⟩ := hf c l i rows₁ i₁ h₁
    obtain ⟨hl₂, hi₂⟩ := ih h₂
    refine ⟨by simp [hl₂, hl₁]; omega, indexedFrom_append hi₁ ?_⟩
    rw [← hl₁]
    exact hi₂

/-- `add_task_and_children` produces consecutively indexed rows and returns
the next free index. -/
theorem add_task_indexed : ∀ (fuel : Nat) (all_tasks : List Task) (task : Task)
    (level index : Nat) (rows : List TaskDisplay) (i' : Nat),
    add_task_and_children all_tasks fuel task level index = some (rows, i') →
    i' = index + rows.length ∧ indexedFrom rows index := by
  intro fuel
  induction fuel with
  | zero =>
    intro all_tasks task level index rows i' h
    rw [add_task_zero] at h
    exact absurd h (by simp)
  | succ fuel ih =>
    intro all_tasks task level index rows i' h
    rw [add_task_succ_eq_some] at h
    obtain ⟨rows₁, h₁, rfl⟩ := h
    obtain ⟨hl, hi⟩ := taskLoop_indexed
      (fun c l i rows₀ i₀' hc => ih all_tasks c l i rows₀ i₀' hc) h₁
    exact ⟨by simp [hl]; omega, indexedFrom_cons hi⟩

/-! ### Membership lemmas for the child and root lists -/

theorem mem_sortByCreated {l : List Task} {t : Task} :
    t ∈ sortByCreated l ↔ t ∈ l :=
  (List.perm_insertionSort _ l).mem_iff

theorem mem_childrenOf {tasks : List Task} {x : Int} {t : Task} :
    t ∈ childrenOf tasks x ↔ t ∈ tasks ∧ t.parent_task_id = some x := by
  unfold childrenOf
  rw [mem_sortByCreated, List.mem_filter]
  simp only [beq_iff_eq]

theorem mem_procChildren {tasks : List Task} {x : Int} {t : Task} :
    t ∈ procChildren tasks x ↔ t ∈ tasks ∧ t.parent_task_id = some x := by
  unfold procChildren incompleteChildrenOf completedChildrenOf
  rw [List.mem_append, List.mem_filter, List.mem_filter, mem_childrenOf]
  cases hc : t.completed <;> simp [hc]

theorem mem_rootTasks {tasks : List Task} {t : Task} :
    t ∈ rootTasks tasks ↔ t ∈ tasks ∧ t.parent_task_id = none := by
  unfold rootTasks
  rw [List.mem_append, mem_sortByCreated, mem_sortByCreated,
    List.mem_filter, List.mem_filter]
  cases hc : t.completed <;>
    simp [hc, Option.isNone_iff_eq_none]

/-- Every row emitted by a subtree computation rooted at a task of the set
carries a task of the set whose parent pointer is either `none` or resolves
to a task of the set. -/
theorem add_task_rows_resolvable :
    ∀ (fuel : Nat) (tasks : List Task) (task : Task) (level index : Nat)
      (rows : List TaskDisplay) (i' : Nat),
    task ∈ tasks →
    (task.parent_task_id = none ∨ ∃ p ∈ tasks, task.parent_task_id = some p.id) →
    add_task_and_children tasks fuel task level index = some (rows, i') →
    ∀ r ∈ rows, r.task ∈ tasks ∧
      (r.task.parent_task_id = none ∨ ∃ p ∈ tasks, r.task.parent_task_id = some p.id) := by
  intro fuel
  induction fuel with
  | zero =>
    intro tasks task level index rows i' _ _ h
    rw [add_task_zero] at h
    exact absurd h (by simp)
  | succ fuel ih =>
    intro tasks task level index rows i' htask hshape h
    rw [add_task_succ_eq_some] at h
    obtain ⟨rows₁, h₁, rfl⟩ := h
    intro r hr
    rcases List.mem_cons.1 hr with hr | hr
    · rw [hr]
      exact ⟨htask, hshape⟩
    · refine taskLoop_forall
        (fun r => r.task ∈ tasks ∧ (r.task.parent_task_id = none ∨
          ∃ p ∈ tasks, r.task.parent_task_id = some p.id)) ?_ h₁ r hr
      intro c hc l₀ i₀ rows₀ i₀' hcall
      have hc' := mem_procChildren.1 hc
      exact ih tasks c l₀ i₀ rows₀ i₀' hc'.1 (Or.inr ⟨task, htask, hc'.2⟩) hcall

/-! ### Concrete fixtures used by witnesses and counterexamples -/

/-- A concrete task record for witnesses and counterexamples. -/
def demoTask (id : Int) (completed : Bool) (parent : Option Int) (created : Int) :
    Task :=
  ⟨id, "t", none, completed, 1, parent, created, created⟩

/-- Two root tasks: T1 incomplete (created 1), T2 completed (created 2). -/
def demoTasks : List Task := [demoTask 1 false none 1, demoTask 2 true none 2]

/-- A task whose `parent_task_id` is `Some 99` where no task has id 99. -/
def orphanTask : Task := demoTask 1 false (some 99) 1

/-! ### Claim C10 -/

/-- C10 (confirmed): in every display sequence produced by the tree
builder, the `index` field stored in the k-th `TaskDisplay` row equals k,
the row's 0-based position in the flattened sequence. -/
theorem c10_index_eq_position (tasks : List Task) (fuel : Nat)
    (out : List TaskDisplay) (h : build_task_hierarchy tasks fuel = some out) :
    ∀ k (hk : k < out.length), (out.get ⟨k, hk⟩).index = k := by
  rw [build_eq_some] at h
  obtain ⟨i', h⟩ := h
  have hidx := (taskLoop_indexed
    (fun c l i rows j hc => add_task_indexed fuel tasks c l i rows j hc) h).2
  intro k hk
  have := hidx k hk
  omega

/-- Witness for C10 at the two-task fixture. -/
theorem c10_index_eq_position_witness :
    (build_task_hierarchy demoTasks 3 =
      some [⟨demoTask 1 false none 1, 0, 0⟩, ⟨demoTask 2 true none 2, 0, 1⟩])
    ∧ (([⟨demoTask 1 false none 1, 0, 0⟩,
        ⟨demoTask 2 true none 2, 0, 1⟩] : List TaskDisplay).get
          ⟨1, by decide⟩).index = 1 :=
  ⟨by decide,
    c10_index_eq_position demoTasks 3
      [⟨demoTask 1 false none 1, 0, 0⟩, ⟨demoTask 2 true none 2, 0, 1⟩]
      (by decide) 1 (by decide)⟩

/-! ### Claim C3 -/

/-- C3 counterexample: a task whose `parent_task_id` is `Some 99`, with no
task of id 99 in the set, does NOT appear in the display sequence at all —
the build of the one-task set produces the empty sequence (the root filter
requires `parent_task_id.is_none()`, and no child filter matches), refuting
the claim that such a task is treated as a root. -/
theorem c3_counterexample :
    build_task_hierarchy [orphanTask] 2 = some []
    ∧ orphanTask.parent_task_id = some 99
    ∧ ([orphanTask].filter (fun t => t.id == 99)) = [] := by decide

/-- C3 amended (proved): a task whose `parent_task_id` is `Some x` with `x`
not the identifier of any task in the set is dropped from the display
sequence entirely — every emitted row's task has `parent_task_id = None` or
a parent pointer resolving to a task in the set. -/
theorem c3_amended_dangling_parent_dropped (tasks : List Task) (fuel : Nat)
    (out : List TaskDisplay) (h : build_task_hierarchy tasks fuel = some out) :
    ∀ r ∈ out, r.task ∈ tasks ∧
      (r.task.parent_task_id = none ∨
        ∃ p ∈ tasks, r.task.parent_task_id = some p.id) := by
  rw [build_eq_some] at h
  obtain ⟨i', h⟩ := h
  refine taskLoop_forall
    (fun r => r.task ∈ tasks ∧ (r.task.parent_task_id = none ∨
      ∃ p ∈ tasks, r.task.parent_task_id = some p.id)) ?_ h
  intro c hc l₀ i₀ rows₀ i₀' hcall
  have hc' := mem_rootTasks.1 hc
  exact add_task_rows_resolvable fuel tasks c l₀ i₀ rows₀ i₀' hc'.1
    (Or.inl hc'.2) hcall

/-- Witness for the amended C3 at the two-task fixture. -/
theorem c3_amended_witness :
    demoTask 1 false none 1 ∈ demoTasks ∧
      ((demoTask 1 false none 1).parent_task_id = none ∨
        ∃ p ∈ demoTasks, (demoTask 1 false none 1).parent_task_id = some p.id) :=
  c3_amended_dangling_parent_dropped demoTasks 3
    [⟨demoTask 1 false none 1, 0, 0⟩, ⟨demoTask 2 true none 2, 0, 1⟩]
    (by decide) ⟨demoTask 1 false none 1, 0, 0⟩ (by decide)

/-! ### Claim C6: navigation index arithmetic -/

/-- The index update performed by `App::next_task` (todo-tui `ui.rs` lines
200-212) and `App::next_workspace` (lines 166-181), and equally by the
`src/src/ui.rs` versions (lines 87-102, 121-133): `len` is the length of
the underlying sequence, `cur` the `ListState` selection.  The Rust code
computes `len - 1` on a `usize` with no emptiness guard; on an empty
sequence this subtraction underflows (a debug-build panic), modelled as
`Except.error`. -/
def next_index_update (len : Nat) (cur : Option Nat) : Except String (Option Nat) :=
  match cur with
  | some i =>
    if len = 0 then .error "attempt to subtract with overflow"
    else .ok (some (if i ≥ len - 1 then 0 else i + 1))
  | none => .ok (some 0)

/-- The index update of `App::previous_task` / `App::previous_workspace`
(todo-tui `ui.rs` lines 183-198 and 214-226): wraps from 0 to `len - 1`,
again with no emptiness guard before the subtraction. -/
def previous_index_update (len : Nat) (cur : Option Nat) :
    Except String (Option Nat) :=
  match cur with
  | some i =>
    if i = 0 then
      if len = 0 then .error "attempt to subtract with overflow"
      else .ok (some (len - 1))
    else .ok (some (i - 1))
  | none => .ok (some 0)

/-- C6 (code bug): on an empty sequence the navigation code does NOT leave
the cursor `None`: with a selection present (e.g. the `App::new` state,
which selects index 0 before any workspace is loaded) the `len - 1`
subtraction underflows, and with no selection it sets the cursor to
`Some 0` even though the sequence is empty.  The claim's positive part — a
non-empty sequence with cursor `None` advances to 0 — does hold. -/
theorem c6_empty_sequence_navigation_bug :
    next_index_update 0 (some 0) = .error "attempt to subtract with overflow"
    ∧ previous_index_update 0 (some 0) = .error "attempt to subtract with overflow"
    ∧ next_index_update 0 none = .ok (some 0)
    ∧ next_index_update 3 none = .ok (some 0)
    ∧ previous_index_update 3 none = .ok (some 0) :=
  ⟨rfl, rfl, rfl, rfl, rfl⟩

/-! ### Claim C9: renaming and the non-empty-after-trim invariant -/

/-- `Db::update_task_name` (`src/db.rs` lines 110-116): stores `title`
verbatim (`UPDATE tasks SET title = ? WHERE id = ?`) — no trimming and no
emptiness check.  `App::finish_rename` passes the raw input buffer to it. -/
def update_task_name (tasks : List Task) (task_id : Int) (title : String) :
    List Task :=
  tasks.map (fun t => if t.id == task_id then { t with title := title } else t)

/-- `Db::update_workspace_name` (`src/db.rs` lines 98-108): same shape for
workspace names. -/
def update_workspace_name (ws : List Workspace) (workspace_id : Int)
    (name : String) : List Workspace :=
  ws.map (fun w => if w.id == workspace_id then { w with name := name } else w)

/-- `s.trim().is_empty()` in Rust: the string trims to nothing exactly when
every character is whitespace, which is how it is modelled here (Lean's
`String.trim` is defined by well-founded recursion and does not evaluate in
the kernel; this all-whitespace formulation is extensionally the same
predicate). -/
def isBlank (s : String) : Bool := s.toList.all (·.isWhitespace)

/-- All stored task titles are non-empty after trimming whitespace. -/
def titlesNonEmptyAfterTrim (tasks : List Task) : Prop :=
  ∀ t ∈ tasks, isBlank t.title = false

/-- All stored workspace names are non-empty after trimming whitespace. -/
def namesNonEmptyAfterTrim (ws : List Workspace) : Prop :=
  ∀ w ∈ ws, isBlank w.name = false

/-- C9 counterexample: committing a rename with an empty (or all-blank)
input buffer — the code has no guard: `finish_rename` passes
`&self.input_buffer` verbatim to `update_task_name` — breaks the
non-empty-after-trim invariant: starting from a state where every title is
non-empty after trim, the renamed task's title is empty after trim. -/
theorem c9_counterexample :
    titlesNonEmptyAfterTrim demoTasks
    ∧ ¬ titlesNonEmptyAfterTrim (update_task_name demoTasks 1 "")
    ∧ ¬ titlesNonEmptyAfterTrim (update_task_name demoTasks 1 "   ") := by
  unfold titlesNonEmptyAfterTrim
  refine ⟨by decide, by decide, by decide⟩

/-- C9 amended (proved): a rename preserves the non-empty-after-trim
invariant for task titles and workspace names provided the committed buffer
is itself non-empty after trimming; the code stores the buffer verbatim, so
with an empty-after-trim buffer the invariant is violated (see the
counterexample). -/
theorem c9_amended_rename_preserves_nonempty (buffer : String)
    (hbuf : isBlank buffer = false) :
    (∀ (tasks : List Task) (id : Int), titlesNonEmptyAfterTrim tasks →
      titlesNonEmptyAfterTrim (update_task_name tasks id buffer))
    ∧ (∀ (ws : List Workspace) (id : Int), namesNonEmptyAfterTrim ws →
      namesNonEmptyAfterTrim (update_workspace_name ws id buffer)) := by
  constructor
  · intro tasks id hinv t ht
    obtain ⟨t₀, ht₀, rfl⟩ := List.mem_map.1 ht
    by_cases hid : (t₀.id == id) = true
    · simp only [hid, if_true]
      exact hbuf
    · simp only [Bool.not_eq_true] at hid
      simp only [hid, Bool.false_eq_true, if_false]
      exact hinv t₀ ht₀
  · intro ws id hinv w hw
    obtain ⟨w₀, hw₀, rfl⟩ := List.mem_map.1 hw
    by_cases hid : (w₀.id == id) = true
    · simp only [hid, if_true]
      exact hbuf
    · simp only [Bool.not_eq_true] at hid
      simp only [hid, Bool.false_eq_true, if_false]
      exact hinv w₀ hw₀

/-- Witness for the amended C9 at a concrete buffer and store. -/
theorem c9_amended_witness :
    titlesNonEmptyAfterTrim (update_task_name demoTasks 1 "new title") :=
  (c9_amended_rename_preserves_nonempty "new title" (by decide)).1
    demoTasks 1 (by unfold titlesNonEmptyAfterTrim; decide)

/-! ### The orchestrator state machine (`App` in `todo-tui/src/ui.rs`) -/

/-- Mirror of `enum Focus`. -/
inductive Focus where
  | Workspaces
  | Tasks
deriving DecidableEq, Repr

/-- Mirror of `enum InputMode`. -/
inductive InputMode where
  | Normal
  | Insert
  | DeleteConfirm
  | Help
  | Creating
deriving DecidableEq, Repr

/-- Mirror of `struct App` (lines 41-54); `workspace_sel` / `task_sel` are
the `ListState::selected()` values. -/
structure AppState where
  workspaces : List Workspace
  tasks : List Task
  task_displays : List TaskDisplay
  workspace_sel : Option Nat
  task_sel : Option Nat
  selected_workspace : Option Nat
  focus : Focus
  input_mode : InputMode
  input_buffer : String
  delete_target : Option String
  creating_subtask : Bool
deriving DecidableEq, Repr

/-- The Store (`Database` / `Db`), abstracted as an oracle giving each
CRUD call's outcome; `Except.error ()` is a failed call (`anyhow::Error`). -/
structure DbOracle where
  get_workspaces : Except Unit (List Workspace)
  get_tasks_for_workspace : Int → Except Unit (List Task)
  create_workspace : String → Except Unit Unit
  create_task : String → Int → Except Unit Unit
  create_subtask : String → Int → Int → Except Unit Unit
  toggle_task_completion : Int → Except Unit Unit
  update_workspace_name : Int → String → Except Unit Unit
  update_task_name : Int → String → Except Unit Unit
  delete_workspace : Int → Except Unit Unit
  delete_task : Int → Except Unit Unit

/-- Result of one `App` method: `ok` is the `Ok(())` return, `err` is an
error propagated by `?` — carrying the state as mutated up to that point,
since `&mut self` changes persist — and `fuelOut` is the embedding's fuel
exhaustion (the Rust original would still be recursing in the builder). -/
inductive Outcome where
  | ok (s : AppState)
  | err (s : AppState)
  | fuelOut
deriving DecidableEq, Repr

/-- `App::cancel_creating` (lines 289-292). -/
def cancel_creating (s : AppState) : AppState :=
  { s with input_mode := InputMode.Normal, input_buffer := "" }

/-- The tail of `App::finish_rename` (lines 358-359). -/
def end_rename (s : AppState) : AppState :=
  { s with input_mode := InputMode.Normal, input_buffer := "" }

/-- `App::cancel_delete_confirm` (lines 436-439). -/
def cancel_delete_confirm (s : AppState) : AppState :=
  { s with input_mode := InputMode.Normal, delete_target := none }

/-- `App::load_tasks_for_selected_workspace` (lines 87-100): refetch the
selected workspace's tasks, rebuild the display sequence, and reset the
task cursor to `Some(0)` (or `None` if the new sequence is empty). -/
def load_tasks_for_selected_workspace (db : DbOracle) (fuel : Nat)
    (s : AppState) : Outcome :=
  match s.selected_workspace with
  | none => Outcome.ok s
  | some selected =>
    match s.workspaces.get? selected with
    | none => Outcome.ok s
    | some workspace =>
      match db.get_tasks_for_workspace workspace.id with
      | Except.error _ => Outcome.err s
      | Except.ok ts =>
        match build_task_hierarchy ts fuel with
        | none => Outcome.fuelOut
        | some displays =>
          Outcome.ok { s with
            tasks := ts
            task_displays := displays
            task_sel := if displays.isEmpty then none else some 0 }

/-- `App::load_workspaces` (lines 77-85). -/
def load_workspaces (db : DbOracle) (fuel : Nat) (s : AppState) : Outcome :=
  match db.get_workspaces with
  | Except.error _ => Outcome.err s
  | Except.ok ws =>
    let s₁ := { s with workspaces := ws }
    if ws.isEmpty then Outcome.ok s₁
    else
      load_tasks_for_selected_workspace db fuel
        { s₁ with workspace_sel := some 0, selected_workspace := some 0 }

/-- The Store call chosen inside the `Focus::Tasks` branch of
`App::finish_creating` (lines 254-279): a subtask under the selected task
when a subtask is being created and a task is selected, a plain task
otherwise. -/
def creation_call (db : DbOracle) (s : AppState) (workspace : Workspace) :
    Except Unit Unit :=
  if s.creating_subtask then
    match s.task_sel with
    | some idx =>
      match s.task_displays.get? idx with
      | some td => db.create_subtask s.input_buffer workspace.id td.task.id
      | none => db.create_task s.input_buffer workspace.id
    | none => db.create_task s.input_buffer workspace.id
  else db.create_task s.input_buffer workspace.id

/-- `App::finish_creating` (lines 240-287). -/
def finish_creating (db : DbOracle) (fuel : Nat) (s : AppState) : Outcome :=
  if isBlank s.input_buffer then Outcome.ok (cancel_creating s)
  else
    match s.focus with
    | Focus.Workspaces =>
      match db.create_workspace s.input_buffer with
      | Except.error _ => Outcome.err s
      | Except.ok _ =>
        match load_workspaces db fuel s with
        | Outcome.ok s₁ => Outcome.ok (cancel_creating s₁)
        | other => other
    | Focus.Tasks =>
      match s.selected_workspace with
      | none => Outcome.ok (cancel_creating s)
      | some selected =>
        match s.workspaces.get? selected with
        | none => Outcome.ok (cancel_creating s)
        | some workspace =>
          match creation_call db s workspace with
          | Except.error _ => Outcome.err s
          | Except.ok _ =>
            match load_tasks_for_selected_workspace db fuel s with
            | Outcome.ok s₁ => Outcome.ok (cancel_creating s₁)
            | other => other

/-- `App::toggle_current_task_completion` (lines 294-306): toggle in the
store, reload/rebuild, then restore the previous cursor value. -/
def toggle_current_task_completion (db : DbOracle) (fuel : Nat)
    (s : AppState) : Outcome :=
  if s.focus = Focus.Tasks then
    match s.task_sel with
    | none => Outcome.ok s
    | some idx =>
      match s.task_displays.get? idx with
      | none => Outcome.ok s
      | some td =>
        match db.toggle_task_completion td.task.id with
        | Except.error _ => Outcome.err s
        | Except.ok _ =>
          match load_tasks_for_selected_workspace db fuel s with
          | Outcome.ok s₁ => Outcome.ok { s₁ with task_sel := s.task_sel }
          | other => other
  else Outcome.ok s

/-- `App::finish_rename` (lines 335-361): rename in the store (the raw
buffer, no trimming), then reload. -/
def finish_rename (db : DbOracle) (fuel : Nat) (s : AppState) : Outcome :=
  match s.focus with
  | Focus.Workspaces =>
    match s.workspace_sel with
    | none => Outcome.ok (end_rename s)
    | some selected =>
      match s.workspaces.get? selected with
      | none => Outcome.ok (end_rename s)
      | some workspace =>
        match db.update_workspace_name workspace.id s.input_buffer with
        | Except.error _ => Outcome.err s
        | Except.ok _ =>
          match load_workspaces db fuel s with
          | Outcome.ok s₁ => Outcome.ok (end_rename s₁)
          | other => other
  | Focus.Tasks =>
    match s.task_sel with
    | none => Outcome.ok (end_rename s)
    | some selected =>
      match s.task_displays.get? selected with
      | none => Outcome.ok (end_rename s)
      | some td =>
        match db.update_task_name td.task.id s.input_buffer with
        | Except.error _ => Outcome.err s
        | Except.ok _ =>
          match load_tasks_for_selected_workspace db fuel s with
          | Outcome.ok s₁ => Outcome.ok (end_rename s₁)
          | other => other

/-- `App::confirm_delete` (lines 395-434): delete in the store, reload,
then re-clamp the cursor against the new sequence. -/
def confirm_delete (db : DbOracle) (fuel : Nat) (s : AppState) : Outcome :=
  match s.focus with
  | Focus.Workspaces =>
    match s.workspace_sel with
    | none => Outcome.ok (cancel_delete_confirm s)
    | some selected =>
      match s.workspaces.get? selected with
      | none => Outcome.ok (cancel_delete_confirm s)
      | some workspace =>
        match db.delete_workspace workspace.id with
        | Except.error _ => Outcome.err s
        | Except.ok _ =>
          match load_workspaces db fuel s with
          | Outcome.ok s₁ =>
            if s₁.workspaces.isEmpty then
              Outcome.ok (cancel_delete_confirm s₁)
            else
              match load_tasks_for_selected_workspace db fuel
                { s₁ with
                  workspace_sel := some (if selected ≥ s₁.workspaces.length
                    then s₁.workspaces.length - 1 else selected)
                  selected_workspace := some (if selected ≥ s₁.workspaces.length
                    then s₁.workspaces.length - 1 else selected) } with
              | Outcome.ok s₂ => Outcome.ok (cancel_delete_confirm s₂)
              | other => other
          | other => other
  | Focus.Tasks =>
    match s.task_sel with
    | none => Outcome.ok (cancel_delete_confirm s)
    | some selected =>
      match s.task_displays.get? selected with
      | none => Outcome.ok (cancel_delete_confirm s)
      | some td =>
        match db.delete_task td.task.id with
        | Except.error _ => Outcome.err s
        | Except.ok _ =>
          match load_tasks_for_selected_workspace db fuel s with
          | Outcome.ok s₁ =>
            if s₁.task_displays.isEmpty then
              Outcome.ok (cancel_delete_confirm s₁)
            else
              Outcome.ok (cancel_delete_confirm { s₁ with
                task_sel := some (if selected ≥ s₁.task_displays.length
                  then s₁.task_displays.length - 1 else selected) })
          | other => other

/-! ### Helper lemmas about the operations -/

/-- Every `Ok` return of `toggle_current_task_completion` carries the
previous cursor value: the code saves `task_state.selected()` and restores
it verbatim after the reload. -/
theorem toggle_keeps_sel {db : DbOracle} {fuel : Nat} {s s' : AppState}
    (h : toggle_current_task_completion db fuel s = Outcome.ok s') :
    s'.task_sel = s.task_sel := by
  unfold toggle_current_task_completion at h
  by_cases hf : s.focus = Focus.Tasks
  · rw [if_pos hf] at h
    cases hsel : s.task_sel with
    | none => simp only [hsel] at h; cases h; exact hsel
    | some idx =>
      simp only [hsel] at h
      cases hget : s.task_displays.get? idx with
      | none => simp only [hget] at h; cases h; exact hsel
      | some td =>
        simp only [hget] at h
        cases htog : db.toggle_task_completion td.task.id with
        | error e => simp only [htog] at h; cases h
        | ok u =>
          simp only [htog] at h
          cases hload : load_tasks_for_selected_workspace db fuel s with
          | ok s₁ => simp only [hload] at h; cases h; simp [hsel]
          | err s₁ => simp only [hload] at h; cases h
          | fuelOut => simp only [hload] at h; cases h
  · rw [if_neg hf] at h; cases h; rfl

/-- An `Ok` return of the task reload either reset the cursor to
`Some 0` / `None` or did nothing (invalid workspace selection). -/
theorem load_tasks_ok_sel {db : DbOracle} {fuel : Nat} {s s₁ : AppState}
    (h : load_tasks_for_selected_workspace db fuel s = Outcome.ok s₁) :
    s₁.task_sel = (if s₁.task_displays.isEmpty then none else some 0) ∨ s₁ = s := by
  unfold load_tasks_for_selected_workspace at h
  cases hw : s.selected_workspace with
  | none => simp only [hw] at h; cases h; exact Or.inr rfl
  | some selected =>
    simp only [hw] at h
    cases hwk : s.workspaces.get? selected with
    | none => simp only [hwk] at h; cases h; exact Or.inr rfl
    | some workspace =>
      simp only [hwk] at h
      cases hts : db.get_tasks_for_workspace workspace.id with
      | error e => simp only [hts] at h; cases h
      | ok ts =>
        simp only [hts] at h
        cases hbuild : build_task_hierarchy ts fuel with
        | none => simp only [hbuild] at h; cases h
        | some displays => simp only [hbuild] at h; cases h; exact Or.inl (by simp)

/-- With a valid workspace selection the reload always resets the cursor. -/
theorem load_tasks_ok_of_valid {db : DbOracle} {fuel : Nat} {s s₁ : AppState}
    {w : Nat} {wk : Workspace}
    (hw : s.selected_workspace = some w) (hwk : s.workspaces.get? w = some wk)
    (h : load_tasks_for_selected_workspace db fuel s = Outcome.ok s₁) :
    s₁.task_sel = (if s₁.task_displays.isEmpty then none else some 0) := by
  unfold load_tasks_for_selected_workspace at h
  simp only [hw, hwk] at h
  cases hts : db.get_tasks_for_workspace wk.id with
  | error e => simp only [hts] at h; cases h
  | ok ts =>
    simp only [hts] at h
    cases hbuild : build_task_hierarchy ts fuel with
    | none => simp only [hbuild] at h; cases h
    | some displays => simp only [hbuild] at h; cases h; simp

/-! ### Concrete orchestration fixtures -/

/-- A concrete workspace record. -/
def demoWorkspace : Workspace := ⟨1, "w", 0, 0⟩

/-- The display sequence the builder produces for `demoTasks`. -/
def demoDisplays : List TaskDisplay :=
  [⟨demoTask 1 false none 1, 0, 0⟩, ⟨demoTask 2 true none 2, 0, 1⟩]

/-- A coherent `App` state: one workspace, the two demo tasks loaded,
focus on tasks, cursor on row 0. -/
def baseState : AppState :=
  { workspaces := [demoWorkspace]
    tasks := demoTasks
    task_displays := demoDisplays
    workspace_sel := some 0
    task_sel := some 0
    selected_workspace := some 0
    focus := Focus.Tasks
    input_mode := InputMode.Normal
    input_buffer := ""
    delete_target := none
    creating_subtask := false }

/-- An oracle whose calls all succeed, fetching the demo data. -/
def allOkDb : DbOracle :=
  { get_workspaces := Except.ok [demoWorkspace]
    get_tasks_for_workspace := fun _ => Except.ok demoTasks
    create_workspace := fun _ => Except.ok ()
    create_task := fun _ _ => Except.ok ()
    create_subtask := fun _ _ _ => Except.ok ()
    toggle_task_completion := fun _ => Except.ok ()
    update_workspace_name := fun _ _ => Except.ok ()
    update_task_name := fun _ _ => Except.ok ()
    delete_workspace := fun _ => Except.ok ()
    delete_task := fun _ => Except.ok () }

/-- Position of the row holding task id `x` in a display sequence. -/
def posOfTask (rows : List TaskDisplay) (x : Int) : Nat :=
  rows.findIdx (fun r => r.task.id == x)

/-- Oracle for the rename scenario: the refetch returns the store content
after `update_task_name` renamed task 2. -/
def db4 : DbOracle := { allOkDb with
  get_tasks_for_workspace := fun _ =>
    Except.ok (update_task_name demoTasks 2 "renamed") }

/-- Rename scenario start state: cursor on row 1 (task 2), Insert mode. -/
def s4 : AppState := { baseState with
  task_sel := some 1
  input_mode := InputMode.Insert
  input_buffer := "renamed" }

/-- State after the rename commit: sequence still has 2 rows, cursor reset
to 0. -/
def c4After : AppState := { baseState with
  tasks := update_task_name demoTasks 2 "renamed"
  task_displays := [⟨demoTask 1 false none 1, 0, 0⟩,
    ⟨{ demoTask 2 true none 2 with title := "renamed" }, 0, 1⟩]
  task_sel := some 0 }

/-- Oracle for the toggle scenario: the refetch returns both tasks
completed (task 1 was just toggled). -/
def db5 : DbOracle := { allOkDb with
  get_tasks_for_workspace := fun _ =>
    Except.ok [demoTask 1 true none 1, demoTask 2 true none 2] }

/-- State after toggling task 1: both completed, order still `[T1, T2]`
(completed group is sorted by creation time and T1 was created earlier),
cursor restored to 0. -/
def c5After : AppState := { baseState with
  tasks := [demoTask 1 true none 1, demoTask 2 true none 2]
  task_displays := [⟨demoTask 1 true none 1, 0, 0⟩,
    ⟨demoTask 2 true none 2, 0, 1⟩]
  task_sel := some 0 }

/-- Oracle for the delete scenario: after deleting task 2 the refetch
returns only task 1. -/
def dbDel : DbOracle := { allOkDb with
  get_tasks_for_workspace := fun _ => Except.ok [demoTask 1 false none 1] }

/-- Delete scenario start state: cursor on row 1 (task 2). -/
def sDel : AppState := { baseState with task_sel := some 1 }

/-- State after deleting task 2: one row left, cursor clamped to 0. -/
def c4DelAfter : AppState := { baseState with
  tasks := [demoTask 1 false none 1]
  task_displays := [⟨demoTask 1 false none 1, 0, 0⟩]
  task_sel := some 0 }

/-! ### Claim C4 -/

/-- C4 counterexample: committing a rename with the cursor on row 1 of a
2-row sequence — the new sequence also has 2 rows, so index 1 is still in
bounds — moves the cursor to `Some 0`: `load_tasks_for_selected_workspace`
resets the selection instead of re-clamping it. -/
theorem c4_counterexample :
    s4.task_sel = some 1
    ∧ finish_rename db4 3 s4 = Outcome.ok c4After
    ∧ c4After.task_displays.length = 2
    ∧ c4After.task_sel = some 0 := by
  refine ⟨rfl, by decide, rfl, rfl⟩

/-- C4 amended (proved): after `confirm_delete` the cursor is re-clamped
(`min i (len - 1)`, `None` on empty); after `toggle_current_task_completion`
the saved cursor value is restored unconditionally; but after `create` and
`rename` the reload resets the task cursor to `Some 0` (`None` if the new
sequence is empty) — it is not re-clamped. -/
theorem c4_amended_cursor_policy (db : DbOracle) (fuel : Nat) (s : AppState) :
    (∀ s' i w, s.focus = Focus.Tasks → s.task_sel = some i →
      s.task_displays.get? i ≠ none →
      s.selected_workspace = some w → s.workspaces.get? w ≠ none →
      finish_rename db fuel s = Outcome.ok s' →
      s'.task_sel = (if s'.task_displays.isEmpty then none else some 0))
    ∧ (∀ s' w, isBlank s.input_buffer = false → s.focus = Focus.Tasks →
      s.selected_workspace = some w → s.workspaces.get? w ≠ none →
      finish_creating db fuel s = Outcome.ok s' →
      s'.task_sel = (if s'.task_displays.isEmpty then none else some 0))
    ∧ (∀ s', toggle_current_task_completion db fuel s = Outcome.ok s' →
      s'.task_sel = s.task_sel)
    ∧ (∀ s' i, s.focus = Focus.Tasks → s.task_sel = some i →
      s.task_displays.get? i ≠ none →
      confirm_delete db fuel s = Outcome.ok s' →
      s'.task_sel = (if s'.task_displays.isEmpty then none
        else some (min i (s'.task_displays.length - 1)))) := by
  refine ⟨?_, ?_, fun s' h => toggle_keeps_sel h, ?_⟩
  · intro s' i w hf hsel hget hw hwk hrun
    unfold finish_rename at hrun
    simp only [hf, hsel] at hrun
    obtain ⟨td, hgd⟩ := Option.ne_none_iff_exists'.1 hget
    simp only [hgd] at hrun
    cases hup : db.update_task_name td.task.id s.input_buffer with
    | error e => simp only [hup] at hrun; cases hrun
    | ok u =>
      simp only [hup] at hrun
      obtain ⟨wk, hwke⟩ := Option.ne_none_iff_exists'.1 hwk
      cases hload : load_tasks_for_selected_workspace db fuel s with
      | ok s₁ =>
        simp only [hload] at hrun
        cases hrun
        have hres := load_tasks_ok_of_valid hw hwke hload
        simpa [end_rename] using hres
      | err s₁ => simp only [hload] at hrun; cases hrun
      | fuelOut => simp only [hload] at hrun; cases hrun
  · intro s' w hblank hf hw hwk hrun
    unfold finish_creating at hrun
    rw [if_neg (by rw [hblank]; exact Bool.false_ne_true)] at hrun
    simp only [hf, hw] at hrun
    obtain ⟨wk, hwke⟩ := Option.ne_none_iff_exists'.1 hwk
    simp only [hwke] at hrun
    cases hcr : creation_call db s wk with
    | error e => simp only [hcr] at hrun; cases hrun
    | ok u =>
      simp only [hcr] at hrun
      cases hload : load_tasks_for_selected_workspace db fuel s with
      | ok s₁ =>
        simp only [hload] at hrun
        cases hrun
        have hres := load_tasks_ok_of_valid hw hwke hload
        simpa [cancel_creating] using hres
      | err s₁ => simp only [hload] at hrun; cases hrun
      | fuelOut => simp only [hload] at hrun; cases hrun
  · intro s' i hf hsel hget hrun
    unfold confirm_delete at hrun
    simp only [hf, hsel] at hrun
    obtain ⟨td, hgd⟩ := Option.ne_none_iff_exists'.1 hget
    simp only [hgd] at hrun
    cases hdel : db.delete_task td.task.id with
    | error e => simp only [hdel] at hrun; cases hrun
    | ok u =>
      simp only [hdel] at hrun
      cases hload : load_tasks_for_selected_workspace db fuel s with
      | ok s₁ =>
        simp only [hload] at hrun
        by_cases hemp : s₁.task_displays.isEmpty = true
        · rw [if_pos hemp] at hrun
          cases hrun
          rcases load_tasks_ok_sel hload with hres | hres
          · simp only [cancel_delete_confirm, hemp, if_pos] at hres ⊢
            simpa [hemp] using hres
          · exfalso
            rw [hres] at hemp
            rw [List.isEmpty_iff] at hemp
            rw [hemp] at hgd
            simp at hgd
        · rw [if_neg hemp] at hrun
          cases hrun
          simp only [cancel_delete_confirm]
          simp only [List.isEmpty_eq_true] at hemp ⊢
          rw [if_neg hemp]
          have hlen : s₁.task_displays.length ≠ 0 := by
            intro h0
            exact hemp (List.length_eq_zero.1 h0)
          by_cases hge : i ≥ s₁.task_displays.length
          · rw [if_pos hge]
            congr 1
            omega
          · rw [if_neg hge]
            congr 1
            omega
      | err s₁ => simp only [hload] at hrun; cases hrun
      | fuelOut => simp only [hload] at hrun; cases hrun

/-- Witness for the amended C4: the four policies at concrete runs. -/
theorem c4_amended_witness :
    c4After.task_sel = some 0
    ∧ c5After.task_sel = some 0
    ∧ c4DelAfter.task_sel = some 0 := by
  refine ⟨?_, ?_, ?_⟩
  · have h := (c4_amended_cursor_policy db4 3 s4).1 c4After 1 0 rfl rfl
      (by decide) rfl (by decide) (by decide)
    exact h.trans (by decide)
  · have h := (c4_amended_cursor_policy db5 3 baseState).2.2.1 c5After (by decide)
    exact h.trans rfl
  · have h := (c4_amended_cursor_policy dbDel 3 sDel).2.2.2 c4DelAfter 1 rfl rfl
      (by decide) (by decide)
    exact h.trans (by decide)

/-! ### Claim C5 -/

/-- C5 counterexample: in the two-root scenario (T1 incomplete created
earlier, T2 completed), toggling T1 to completed does NOT move it after T2:
both are now completed and the completed group is ordered by ascending
creation time, so the rebuilt order is still `[T1, T2]` — T1's row position
(0) is not greater than T2's (1). -/
theorem c5_counterexample :
    toggle_current_task_completion db5 3 baseState = Outcome.ok c5After
    ∧ ¬ posOfTask c5After.task_displays 1 > posOfTask c5After.task_displays 2 := by
  exact ⟨by decide, by decide⟩

/-- C5 amended (proved): toggling T1 to completed leaves the rebuilt
sequence in the order `[T1, T2]` (within the completed group ordering is by
ascending creation timestamp and T1 was created first); the sequence length
is unchanged and the cursor — restored to its saved value — still points at
T1's position 0. -/
theorem c5_amended_toggle_scenario :
    toggle_current_task_completion db5 3 baseState = Outcome.ok c5After
    ∧ posOfTask c5After.task_displays 1 = 0
    ∧ posOfTask c5After.task_displays 2 = 1
    ∧ c5After.task_sel = some 0
    ∧ c5After.task_displays.length = baseState.task_displays.length := by
  exact ⟨by decide, by decide, by decide, rfl, rfl⟩

/-! ### Claim C7 -/

/-- Oracle whose task refetch fails while everything else succeeds. -/
def dbFailTasks : DbOracle := { allOkDb with
  get_tasks_for_workspace := fun _ => Except.error () }

/-- The `App::new` state right after startup with an empty store, in
Creating mode with buffer "w". -/
def emptyStartState : AppState :=
  { workspaces := [], tasks := [], task_displays := [], workspace_sel := some 0,
    task_sel := none, selected_workspace := some 0, focus := Focus.Workspaces,
    input_mode := InputMode.Creating, input_buffer := "w", delete_target := none,
    creating_subtask := false }

/-- The state the failing create leaves behind: the workspace list has
already been replaced. -/
def c7ErrState : AppState := { emptyStartState with workspaces := [demoWorkspace] }

/-- Oracle whose calls all fail. -/
def dbAllFail : DbOracle :=
  { get_workspaces := Except.error ()
    get_tasks_for_workspace := fun _ => Except.error ()
    create_workspace := fun _ => Except.error ()
    create_task := fun _ _ => Except.error ()
    create_subtask := fun _ _ _ => Except.error ()
    toggle_task_completion := fun _ => Except.error ()
    update_workspace_name := fun _ _ => Except.error ()
    update_task_name := fun _ _ => Except.error ()
    delete_workspace := fun _ => Except.error ()
    delete_task := fun _ => Except.error () }

/-- C7 counterexample: a Store-call failure during one interactive create
command that does NOT leave the visible state as it was: the
`create_workspace` mutate succeeds, `load_workspaces` succeeds and replaces
the workspace list, and then the task refetch fails — the error propagates
with the workspace list already changed (partial application). -/
theorem c7_counterexample :
    finish_creating dbFailTasks 3 emptyStartState = Outcome.err c7ErrState
    ∧ ¬ c7ErrState.workspaces = emptyStartState.workspaces := by
  exact ⟨by decide, by decide⟩

/-- C7 amended (proved): when the MUTATING Store call itself (the first
call of the command) fails, the command returns the error with the
in-memory state exactly as it was — for toggle, rename (both focuses),
create (both focuses) and delete (both focuses).  (A fetch failure after a
successful mutate can, however, leave partial application behind — see the
counterexample.) -/
theorem c7_amended_mutate_failure_atomic (db : DbOracle) (fuel : Nat)
    (s : AppState) :
    (∀ i td e, s.focus = Focus.Tasks → s.task_sel = some i →
      s.task_displays.get? i = some td →
      db.toggle_task_completion td.task.id = Except.error e →
      toggle_current_task_completion db fuel s = Outcome.err s)
    ∧ (∀ i td e, s.focus = Focus.Tasks → s.task_sel = some i →
      s.task_displays.get? i = some td →
      db.update_task_name td.task.id s.input_buffer = Except.error e →
      finish_rename db fuel s = Outcome.err s)
    ∧ (∀ i wk e, s.focus = Focus.Workspaces → s.workspace_sel = some i →
      s.workspaces.get? i = some wk →
      db.update_workspace_name wk.id s.input_buffer = Except.error e →
      finish_rename db fuel s = Outcome.err s)
    ∧ (∀ e, isBlank s.input_buffer = false → s.focus = Focus.Workspaces →
      db.create_workspace s.input_buffer = Except.error e →
      finish_creating db fuel s = Outcome.err s)
    ∧ (∀ w wk e, isBlank s.input_buffer = false → s.focus = Focus.Tasks →
      s.selected_workspace = some w → s.workspaces.get? w = some wk →
      creation_call db s wk = Except.error e →
      finish_creating db fuel s = Outcome.err s)
    ∧ (∀ i td e, s.focus = Focus.Tasks → s.task_sel = some i →
      s.task_displays.get? i = some td →
      db.delete_task td.task.id = Except.error e →
      confirm_delete db fuel s = Outcome.err s)
    ∧ (∀ i wk e, s.focus = Focus.Workspaces → s.workspace_sel = some i →
      s.workspaces.get? i = some wk →
      db.delete_workspace wk.id = Except.error e →
      confirm_delete db fuel s = Outcome.err s) := by
  refine ⟨?_, ?_, ?_, ?_, ?_, ?_, ?_⟩
  · intro i td e hf hsel hget herr
    unfold toggle_current_task_completion
    rw [if_pos hf]
    simp only [hsel, hget, herr]
  · intro i td e hf hsel hget herr
    unfold finish_rename
    simp only [hf, hsel, hget, herr]
  · intro i wk e hf hsel hget herr
    unfold finish_rename
    simp only [hf, hsel, hget, herr]
  · intro e hblank hf herr
    unfold finish_creating
    rw [if_neg (by rw [hblank]; exact Bool.false_ne_true)]
    simp only [hf, herr]
  · intro w wk e hblank hf hw hwk herr
    unfold finish_creating
    rw [if_neg (by rw [hblank]; exact Bool.false_ne_true)]
    simp only [hf, hw, hwk, herr]
  · intro i td e hf hsel hget herr
    unfold confirm_delete
    simp only [hf, hsel, hget, herr]
  · intro i wk e hf hsel hget herr
    unfold confirm_delete
    simp only [hf, hsel, hget, herr]

/-- Witness for the amended C7: failing mutate calls leave `baseState`
untouched for toggle, task rename and task delete. -/
theorem c7_amended_witness :
    toggle_current_task_completion dbAllFail 3 baseState = Outcome.err baseState
    ∧ finish_rename dbAllFail 3 baseState = Outcome.err baseState
    ∧ confirm_delete dbAllFail 3 baseState = Outcome.err baseState := by
  refine ⟨?_, ?_, ?_⟩
  · exact (c7_amended_mutate_failure_atomic dbAllFail 3 baseState).1 0
      ⟨demoTask 1 false none 1, 0, 0⟩ () rfl rfl (by decide) rfl
  · exact (c7_amended_mutate_failure_atomic dbAllFail 3 baseState).2.1 0
      ⟨demoTask 1 false none 1, 0, 0⟩ () rfl rfl (by decide) rfl
  · exact (c7_amended_mutate_failure_atomic dbAllFail 3 baseState).2.2.2.2.2.1 0
      ⟨demoTask 1 false none 1, 0, 0⟩ () rfl rfl (by decide) rfl

/-! ### Claim C8: sufficient fuel under acyclicity -/

/-- The strict descendants of `t`: tasks reachable from `t` along child
edges within the set. -/
def descSet (tasks : List Task) (t : Task) : Set Task :=
  { d | Relation.TransGen (edge tasks) t d }

theorem descSet_finite (tasks : List Task) (t : Task) :
    (descSet tasks t).Finite := by
  refine (List.finite_toSet tasks).subset ?_
  intro d hd
  obtain ⟨b, _, hb⟩ := Relation.TransGen.tail'_iff.1 hd
  exact hb.2.1

theorem descSet_ssubset {tasks : List Task} {t c : Task}
    (he : edge tasks t c) (hacy : Acyclic tasks) :
    descSet tasks c ⊂ descSet tasks t := by
  constructor
  · intro d hd
    exact Relation.TransGen.head he hd
  · intro hsub
    exact hacy c (hsub (Relation.TransGen.single he))

theorem descSet_ncard_le (tasks : List Task) (t : Task) :
    (descSet tasks t).ncard ≤ tasks.length := by
  have h₁ : (descSet tasks t).ncard ≤ ({x | x ∈ tasks} : Set Task).ncard := by
    refine Set.ncard_le_ncard ?_ (List.finite_toSet tasks)
    intro d hd
    obtain ⟨b, _, hb⟩ := Relation.TransGen.tail'_iff.1 hd
    exact hb.2.1
  have h₂ : ({x | x ∈ tasks} : Set Task).ncard = tasks.toFinset.card := by
    rw [← List.coe_toFinset, Set.ncard_coe_Finset]
  have h₃ := List.toFinset_card_le tasks
  omega

/-- If the body always succeeds on members of `cs`, the loop succeeds. -/
theorem taskLoop_total {f : Task → Nat → Nat → Option (List TaskDisplay × Nat)} :
    ∀ {cs : List Task},
    (∀ c ∈ cs, ∀ l i, ∃ r, f c l i = some r) →
    ∀ l i, ∃ r, taskLoop f cs l i = some r := by
  intro cs
  induction cs with
  | nil => intro _ l i; exact ⟨([], i), rfl⟩
  | cons c cs ih =>
    intro hf l i
    obtain ⟨⟨rows₁, i₁⟩, h₁⟩ := hf c (List.mem_cons_self c cs) l i
    obtain ⟨⟨rows₂, i₂⟩, h₂⟩ := ih (fun d hd => hf d (List.mem_cons_of_mem c hd)) l i₁
    exact ⟨(rows₁ ++ rows₂, i₂), by simp only [taskLoop, h₁, h₂]⟩

/-- Under acyclicity, fuel exceeding the descendant count suffices for one
subtree. -/
theorem add_task_total (tasks : List Task) (hacy : Acyclic tasks) :
    ∀ (fuel : Nat) (t : Task), t ∈ tasks → (descSet tasks t).ncard < fuel →
    ∀ l i, ∃ r, add_task_and_children tasks fuel t l i = some r := by
  intro fuel
  induction fuel with
  | zero => intro t _ h; omega
  | succ fuel ih =>
    intro t ht hcard l i
    have hloop : ∀ c ∈ procChildren tasks t.id, ∀ l₀ i₀,
        ∃ r, add_task_and_children tasks fuel c l₀ i₀ = some r := by
      intro c hc l₀ i₀
      have hc' := mem_procChildren.1 hc
      have he : edge tasks t c := ⟨ht, hc'.1, hc'.2⟩
      have hlt : (descSet tasks c).ncard < (descSet tasks t).ncard :=
        Set.ncard_lt_ncard (descSet_ssubset he hacy) (descSet_finite tasks t)
      exact ih c hc'.1 (by omega) l₀ i₀
    obtain ⟨⟨rows, i'⟩, hr⟩ := taskLoop_total hloop (l + 1) (i + 1)
    exact ⟨(⟨t, l, i⟩ :: rows, i'), by simp only [add_task_and_children, hr]⟩

/-- C8 (confirmed): when the parent relation restricted to the task set is
acyclic, the flattening recursion terminates — fuel `tasks.length + 1`
already produces a (finite) display sequence. -/
theorem c8_acyclic_build_terminates (tasks : List Task) (hacy : Acyclic tasks) :
    ∃ out, build_task_hierarchy tasks (tasks.length + 1) = some out := by
  have hroots : ∀ c ∈ rootTasks tasks, ∀ l i,
      ∃ r, add_task_and_children tasks (tasks.length + 1) c l i = some r := by
    intro c hc l i
    have hle := descSet_ncard_le tasks c
    exact add_task_total tasks hacy (tasks.length + 1) c
      (mem_rootTasks.1 hc).1 (by omega) l i
  obtain ⟨⟨rows, i'⟩, hr⟩ := taskLoop_total hroots 0 0
  exact ⟨rows, by simp only [build_task_hierarchy, hr]⟩

/-- Witness for C8 at the two-task fixture (whose parent relation has no
edge at all, hence is acyclic). -/
theorem c8_witness :
    ∃ out, build_task_hierarchy demoTasks (demoTasks.length + 1) = some out :=
  c8_acyclic_build_terminates demoTasks (fun t h => by
    have hedge : ∀ p c : Task, ¬ edge demoTasks p c := by
      rintro p c ⟨hp, hc, hpar⟩
      have hnone : c.parent_task_id = none := by
        simp only [demoTasks, List.mem_cons, List.mem_singleton,
          List.not_mem_nil, or_false] at hc
        rcases hc with rfl | rfl <;> rfl
      rw [hnone] at hpar
      cases hpar
    have hT : ∀ a b : Task, ¬ Relation.TransGen (edge demoTasks) a b := by
      intro a b hab
      induction hab with
      | single h₁ => exact hedge _ _ h₁
      | tail h₁ h₂ ih => exact hedge _ _ h₂
    exact hT t t h)

/-! ### Structure of the emitted subtrees (towards C1 and C2) -/

/-- Task identifiers are pairwise distinct — the store's uniqueness
guarantee on the `id` column (spec §3: "identifier (opaque, unique)"). -/
def NodupIds (tasks : List Task) : Prop := (tasks.map Task.id).Nodup

theorem id_injective {tasks : List Task} (hN : NodupIds tasks) {a b : Task}
    (ha : a ∈ tasks) (hb : b ∈ tasks) (hid : a.id = b.id) : a = b :=
  List.inj_on_of_nodup_map hN ha hb hid

/-- The tasks of the emitted rows. -/
def rowTasks (rows : List TaskDisplay) : List Task := rows.map (·.task)

/-- The task identifiers of the emitted rows. -/
def rowIds (rows : List TaskDisplay) : List Int := rows.map (·.task.id)

/-- The emitted rows with parent pointer `Some x`, in display order. -/
def filterParent (rows : List TaskDisplay) (x : Int) : List Task :=
  (rowTasks rows).filter (fun u => u.parent_task_id == some x)

/-- The emitted rows with no parent pointer, in display order. -/
def filterRoot (rows : List TaskDisplay) : List Task :=
  (rowTasks rows).filter (fun u => u.parent_task_id.isNone)

theorem add_task_shape {tasks : List Task} {fuel : Nat} {t : Task}
    {l i : Nat} {rows : List TaskDisplay} {i' : Nat}
    (h : add_task_and_children tasks fuel t l i = some (rows, i')) :
    ∃ rest, rows = ⟨t, l, i⟩ :: rest := by
  cases fuel with
  | zero => rw [add_task_zero] at h; exact absurd h (by simp)
  | succ fuel =>
    rw [add_task_succ_eq_some] at h
    obtain ⟨rows₁, _, rfl⟩ := h
    exact ⟨rows₁, rfl⟩

/-- A loop-level combinator remembering which child produced each row. -/
theorem taskLoop_exists (Q : Task → TaskDisplay → Prop)
    {f : Task → Nat → Nat → Option (List TaskDisplay × Nat)} :
    ∀ {cs : List Task} {l i : Nat} {rows : List TaskDisplay} {i' : Nat},
    (∀ c ∈ cs, ∀ l₀ i₀ rows₀ i₀', f c l₀ i₀ = some (rows₀, i₀') →
      ∀ r ∈ rows₀, Q c r) →
    taskLoop f cs l i = some (rows, i') → ∀ r ∈ rows, ∃ c ∈ cs, Q c r := by
  intro cs
  induction cs with
  | nil =>
    intro l i rows i' _ h r hr
    rw [taskLoop_nil] at h
    simp only [Option.some.injEq, Prod.mk.injEq] at h
    rw [← h.1] at hr
    exact absurd hr (List.not_mem_nil r)
  | cons c cs ih =>
    intro l i rows i' hbody h r hr
    rw [taskLoop_cons_eq_some] at h
    obtain ⟨rows₁, i₁, rows₂, h₁, h₂, rfl⟩ := h
    rcases List.mem_append.1 hr with hr₁ | hr₂
    · exact ⟨c, List.mem_cons_self c cs,
        hbody c (List.mem_cons_self c cs) l i rows₁ i₁ h₁ r hr₁⟩
    · obtain ⟨d, hd, hQ⟩ :=
        ih (fun d hd => hbody d (List.mem_cons_of_mem c hd)) h₂ r hr₂
      exact ⟨d, List.mem_cons_of_mem c hd, hQ⟩

/-- Every member of a successful loop had a successful body call. -/
theorem taskLoop_success_elem {f : Task → Nat → Nat → Option (List TaskDisplay × Nat)} :
    ∀ {cs : List Task} {l i : Nat} {rows : List TaskDisplay} {i' : Nat},
    taskLoop f cs l i = some (rows, i') →
    ∀ c ∈ cs, ∃ i₀ rows₀ i₀', f c l i₀ = some (rows₀, i₀') := by
  intro cs
  induction cs with
  | nil => intro l i rows i' _ c hc; exact absurd hc (List.not_mem_nil c)
  | cons c₀ cs ih =>
    intro l i rows i' h c hc
    rw [taskLoop_cons_eq_some] at h
    obtain ⟨rows₁, i₁, rows₂, h₁, h₂, rfl⟩ := h
    rcases List.mem_cons.1 hc with rfl | hc'
    · exact ⟨i, rows₁, i₁, h₁⟩
    · exact ih h₂ c hc'

/-- Every row of a subtree computation is the root `t` itself or a strict
descendant of it, and lies in the task set when `t` does. -/
theorem add_task_desc : ∀ (fuel : Nat) (tasks : List Task) (t : Task)
    (l i : Nat) (rows : List TaskDisplay) (i' : Nat), t ∈ tasks →
    add_task_and_children tasks fuel t l i = some (rows, i') →
    ∀ r ∈ rows, r.task ∈ tasks ∧
      Relation.ReflTransGen (edge tasks) t r.task ∧
      (r.task = t ∨ Relation.TransGen (edge tasks) t r.task) := by
  intro fuel
  induction fuel with
  | zero =>
    intro tasks t l i rows i' _ h
    rw [add_task_zero] at h
    exact absurd h (by simp)
  | succ fuel ih =>
    intro tasks t l i rows i' ht h
    rw [add_task_succ_eq_some] at h
    obtain ⟨rows₁, h₁, rfl⟩ := h
    intro r hr
    rcases List.mem_cons.1 hr with rfl | hr₁
    · exact ⟨ht, Relation.ReflTransGen.refl, Or.inl rfl⟩
    · obtain ⟨c, hc, hQ⟩ := taskLoop_exists
        (fun c r => r.task ∈ tasks ∧ Relation.ReflTransGen (edge tasks) c r.task)
        (fun c hc l₀ i₀ rows₀ i₀' hcall r₀ hr₀ => by
          have hres := ih tasks c l₀ i₀ rows₀ i₀' (mem_procChildren.1 hc).1 hcall r₀ hr₀
          exact ⟨hres.1, hres.2.1⟩) h₁ r hr₁
      have hcp := mem_procChildren.1 hc
      have he : edge tasks t c := ⟨ht, hcp.1, hcp.2⟩
      exact ⟨hQ.1, Relation.ReflTransGen.head he hQ.2,
        Or.inr (Relation.TransGen.trans_left (Relation.TransGen.single he) hQ.2)⟩

/-- A successful subtree computation excludes cycles through any task
reachable from its root: the recursion would otherwise descend forever and
exhaust any fuel. -/
theorem add_task_no_cycle : ∀ (fuel : Nat) (tasks : List Task) (t : Task)
    (l i : Nat) (rows : List TaskDisplay) (i' : Nat),
    add_task_and_children tasks fuel t l i = some (rows, i') →
    ∀ u, Relation.ReflTransGen (edge tasks) t u →
    ¬ Relation.TransGen (edge tasks) u u := by
  intro fuel
  induction fuel with
  | zero =>
    intro tasks t l i rows i' h
    rw [add_task_zero] at h
    exact absurd h (by simp)
  | succ fuel ih =>
    intro tasks t l i rows i' h u hru hcyc
    rw [add_task_succ_eq_some] at h
    obtain ⟨rows₁, h₁, rfl⟩ := h
    rcases Relation.ReflTransGen.cases_head hru with rfl | ⟨c, hec, hcu⟩
    · -- u = t: the cycle's first step enters a child of t
      obtain ⟨c, hec, hct⟩ := Relation.TransGen.head'_iff.1 hcyc
      have hc : c ∈ procChildren tasks t.id :=
        mem_procChildren.2 ⟨hec.2.1, hec.2.2⟩
      obtain ⟨i₀, rows₀, i₀', hcall⟩ := taskLoop_success_elem h₁ c hc
      exact ih tasks c (l + 1) i₀ rows₀ i₀' hcall c Relation.ReflTransGen.refl
        (Relation.TransGen.trans_right hct (Relation.TransGen.single hec))
    · -- the path to u starts with a child c of t
      have hc : c ∈ procChildren tasks t.id :=
        mem_procChildren.2 ⟨hec.2.1, hec.2.2⟩
      obtain ⟨i₀, rows₀, i₀', hcall⟩ := taskLoop_success_elem h₁ c hc
      exact ih tasks c (l + 1) i₀ rows₀ i₀' hcall u hcu hcyc

/-- With unique identifiers, two strict ancestors of the same task are
comparable: the upward parent chain from any task is unique. -/
theorem ancestors_comparable {tasks : List Task} (hN : NodupIds tasks) :
    ∀ {d a : Task}, Relation.TransGen (edge tasks) a d →
    ∀ {b : Task}, Relation.TransGen (edge tasks) b d →
    Relation.ReflTransGen (edge tasks) a b ∨
      Relation.ReflTransGen (edge tasks) b a := by
  intro d a had
  induction had with
  | single h₁ =>
    intro b hbd
    obtain ⟨q, hbq, hqd⟩ := Relation.TransGen.tail'_iff.1 hbd
    have haq : a = q :=
      id_injective hN h₁.1 hqd.1 (Option.some.inj (h₁.2.2.symm.trans hqd.2.2))
    exact Or.inr (haq ▸ hbq)
  | @tail p e h₁ h₂ ih =>
    intro b hbd
    obtain ⟨q, hbq, hqd⟩ := Relation.TransGen.tail'_iff.1 hbd
    have hpq : p = q :=
      id_injective hN h₂.1 hqd.1 (Option.some.inj (h₂.2.2.symm.trans hqd.2.2))
    subst hpq
    rcases Relation.reflTransGen_iff_eq_or_transGen.1 hbq with rfl | hbp
    · exact Or.inl h₁.to_reflTransGen
    · exact ih hbp

/-- If `x` can strictly reach a task with the same parent pointer as `x`,
then `x` lies on a cycle. -/
theorem reach_sibling_cycle {tasks : List Task} {x y : Task}
    (hx : x ∈ tasks) (hpar : x.parent_task_id = y.parent_task_id)
    (hxy : Relation.TransGen (edge tasks) x y) :
    Relation.TransGen (edge tasks) x x := by
  obtain ⟨q, hq₁, hq₂⟩ := Relation.TransGen.tail'_iff.1 hxy
  have he : edge tasks q x := ⟨hq₂.1, hx, by rw [hpar]; exact hq₂.2.2⟩
  exact Relation.TransGen.trans_right hq₁ (Relation.TransGen.single he)

/-- Two distinct siblings (same parent pointer) have disjoint subtrees,
provided neither lies on a cycle. -/
theorem sibling_disjoint {tasks : List Task} (hN : NodupIds tasks)
    {c c' d : Task} (hc : c ∈ tasks) (hc' : c' ∈ tasks) (hcc : c ≠ c')
    (hpar : c.parent_task_id = c'.parent_task_id)
    (hnc : ¬ Relation.TransGen (edge tasks) c c)
    (hnc' : ¬ Relation.TransGen (edge tasks) c' c')
    (hd : Relation.ReflTransGen (edge tasks) c d)
    (hd' : Relation.ReflTransGen (edge tasks) c' d) : False := by
  rcases Relation.reflTransGen_iff_eq_or_transGen.1 hd with rfl | htd
  · rcases Relation.reflTransGen_iff_eq_or_transGen.1 hd' with rfl | htd'
    · exact hcc rfl
    · exact hnc' (reach_sibling_cycle hc' hpar.symm htd')
  · rcases Relation.reflTransGen_iff_eq_or_transGen.1 hd' with rfl | htd'
    · exact hnc (reach_sibling_cycle hc hpar htd)
    · rcases ancestors_comparable hN htd htd' with hcmp | hcmp
      · rcases Relation.reflTransGen_iff_eq_or_transGen.1 hcmp with rfl | ht
        · exact hcc rfl
        · exact hnc (reach_sibling_cycle hc hpar ht)
      · rcases Relation.reflTransGen_iff_eq_or_transGen.1 hcmp with rfl | ht
        · exact hcc rfl
        · exact hnc' (reach_sibling_cycle hc' hpar.symm ht)

theorem nodup_of_nodupIds {tasks : List Task} (hN : NodupIds tasks) :
    tasks.Nodup :=
  List.Nodup.of_map Task.id hN

theorem sortByCreated_nodup {l : List Task} (h : l.Nodup) :
    (sortByCreated l).Nodup :=
  (List.perm_insertionSort _ l).symm.nodup h

theorem childrenOf_nodup {tasks : List Task} (hN : NodupIds tasks) (x : Int) :
    (childrenOf tasks x).Nodup :=
  sortByCreated_nodup (List.Nodup.filter _ (nodup_of_nodupIds hN))

theorem procChildren_nodup {tasks : List Task} (hN : NodupIds tasks) (x : Int) :
    (procChildren tasks x).Nodup := by
  unfold procChildren incompleteChildrenOf completedChildrenOf
  refine List.Nodup.append (List.Nodup.filter _ (childrenOf_nodup hN x))
    (List.Nodup.filter _ (childrenOf_nodup hN x)) ?_
  rw [List.disjoint_left]
  intro a ha ha'
  have h₁ := List.of_mem_filter ha
  have h₂ := List.of_mem_filter ha'
  simp only [h₂] at h₁
  exact absurd h₁ (by simp)

theorem rootTasks_nodup {tasks : List Task} (hN : NodupIds tasks) :
    (rootTasks tasks).Nodup := by
  unfold rootTasks
  refine List.Nodup.append
    (sortByCreated_nodup (List.Nodup.filter _ (nodup_of_nodupIds hN)))
    (sortByCreated_nodup (List.Nodup.filter _ (nodup_of_nodupIds hN))) ?_
  rw [List.disjoint_left]
  intro a ha ha'
  rw [mem_sortByCreated] at ha ha'
  have h₁ := List.of_mem_filter ha
  have h₂ := List.of_mem_filter ha'
  rw [Bool.and_eq_true] at h₁ h₂
  rw [h₂.1] at h₁
  exact absurd h₁.1 (by simp)

theorem filterParent_append (rows₁ rows₂ : List TaskDisplay) (x : Int) :
    filterParent (rows₁ ++ rows₂) x = filterParent rows₁ x ++ filterParent rows₂ x := by
  unfold filterParent rowTasks
  rw [List.map_append, List.filter_append]

theorem filterParent_cons (r : TaskDisplay) (rows : List TaskDisplay) (x : Int) :
    filterParent (r :: rows) x =
      (if r.task.parent_task_id = some x then [r.task] else [])
        ++ filterParent rows x := by
  unfold filterParent rowTasks
  rw [List.map_cons, List.filter_cons]
  by_cases h : r.task.parent_task_id = some x
  · simp [h]
  · simp [h]

theorem filterRoot_append (rows₁ rows₂ : List TaskDisplay) :
    filterRoot (rows₁ ++ rows₂) = filterRoot rows₁ ++ filterRoot rows₂ := by
  unfold filterRoot rowTasks
  rw [List.map_append, List.filter_append]

theorem rowIds_append (rows₁ rows₂ : List TaskDisplay) :
    rowIds (rows₁ ++ rows₂) = rowIds rows₁ ++ rowIds rows₂ := by
  unfold rowIds
  rw [List.map_append]

theorem mem_rowIds {rows : List TaskDisplay} {x : Int} :
    x ∈ rowIds rows ↔ ∃ r ∈ rows, r.task.id = x := by
  unfold rowIds
  rw [List.mem_map]

theorem rowIds_cons (r : TaskDisplay) (rows : List TaskDisplay) :
    rowIds (r :: rows) = r.task.id :: rowIds rows := rfl

theorem flt_loop_of_task {tasks : List Task} (hN : NodupIds tasks) {fuel : Nat}
    (htask : ∀ (t : Task) (l i : Nat) (rows : List TaskDisplay) (i' : Nat),
      t ∈ tasks →
      add_task_and_children tasks fuel t l i = some (rows, i') →
      ∀ x : Int, filterParent rows x =
        (if t.parent_task_id = some x then [t] else [])
          ++ (if x ∈ rowIds rows then procChildren tasks x else [])) :
    ∀ (cs : List Task) (pp : Option Int) (l i : Nat) (rows : List TaskDisplay)
      (i' : Nat),
      (∀ c ∈ cs, c ∈ tasks ∧ c.parent_task_id = pp) → cs.Nodup →
      taskLoop (fun c l₀ i₀ => add_task_and_children tasks fuel c l₀ i₀)
        cs l i = some (rows, i') →
      ∀ x : Int, filterParent rows x =
        (if pp = some x then cs
          else if x ∈ rowIds rows then procChildren tasks x else []) := by
  intro cs
  induction cs with
  | nil =>
    intro pp l i rows i' _ _ h x
    rw [taskLoop_nil] at h
    simp only [Option.some.injEq, Prod.mk.injEq] at h
    rw [← h.1]
    by_cases hpp : pp = some x
    · rw [if_pos hpp]; rfl
    · rw [if_neg hpp, if_neg (by simp [rowIds])]; rfl
  | cons c cs ihl =>
    intro pp l i rows i' hcs hnd h x
    rw [taskLoop_cons_eq_some] at h
    obtain ⟨rows₁, i₁, rows₂, h₁, h₂, rfl⟩ := h
    have hc := hcs c (List.mem_cons_self c cs)
    have hF₁ := htask c l i rows₁ i₁ hc.1 h₁ x
    have hF₂ := ihl pp l i₁ rows₂ i'
      (fun d hd => hcs d (List.mem_cons_of_mem c hd)) hnd.of_cons h₂ x
    have hnc : ¬ Relation.TransGen (edge tasks) c c :=
      add_task_no_cycle fuel tasks c l i rows₁ i₁ h₁ c Relation.ReflTransGen.refl
    by_cases hpp : pp = some x
    · rw [if_pos hpp]
      have hcp : c.parent_task_id = some x := hc.2.trans hpp
      have hx₁ : x ∉ rowIds rows₁ := by
        intro hx
        obtain ⟨r, hr, hrid⟩ := mem_rowIds.1 hx
        have hdesc := add_task_desc fuel tasks c l i rows₁ i₁ hc.1 h₁ r hr
        have he : edge tasks r.task c := ⟨hdesc.1, hc.1, by rw [hcp, ← hrid]⟩
        exact hnc (Relation.TransGen.trans_right hdesc.2.1
          (Relation.TransGen.single he))
      rw [filterParent_append, hF₁, hF₂, if_pos hpp, if_pos hcp, if_neg hx₁]
      simp
    · rw [if_neg hpp]
      have hcp : ¬ c.parent_task_id = some x := by rw [hc.2]; exact hpp
      rw [filterParent_append, hF₁, hF₂, if_neg hcp, if_neg hpp, List.nil_append]
      by_cases hx₁ : x ∈ rowIds rows₁
      · have hx₂ : x ∉ rowIds rows₂ := by
          intro hx₂
          obtain ⟨r₁, hr₁, hid₁⟩ := mem_rowIds.1 hx₁
          obtain ⟨r₂, hr₂, hid₂⟩ := mem_rowIds.1 hx₂
          have hdesc₁ := add_task_desc fuel tasks c l i rows₁ i₁ hc.1 h₁ r₁ hr₁
          obtain ⟨c₂, hcc₂, hQ⟩ := taskLoop_exists
            (fun c₂ r => r.task ∈ tasks ∧
              Relation.ReflTransGen (edge tasks) c₂ r.task ∧
              ¬ Relation.TransGen (edge tasks) c₂ c₂)
            (fun c₂ hcc l₀ i₀ rows₀ i₀' hcall r₀ hr₀ => by
              have hd := add_task_desc fuel tasks c₂ l₀ i₀ rows₀ i₀'
                (hcs c₂ (List.mem_cons_of_mem c hcc)).1 hcall r₀ hr₀
              exact ⟨hd.1, hd.2.1, add_task_no_cycle fuel tasks c₂ l₀ i₀ rows₀ i₀'
                hcall c₂ Relation.ReflTransGen.refl⟩)
            h₂ r₂ hr₂
          have hteq : r₁.task = r₂.task :=
            id_injective hN hdesc₁.1 hQ.1 (by rw [hid₁, hid₂])
          have hne : c ≠ c₂ := by
            intro hceq
            exact (List.nodup_cons.1 hnd).1 (hceq ▸ hcc₂)
          exact sibling_disjoint hN hc.1 (hcs c₂ (List.mem_cons_of_mem c hcc₂)).1
            hne (hc.2.trans (hcs c₂ (List.mem_cons_of_mem c hcc₂)).2.symm)
            hnc hQ.2.2 hdesc₁.2.1 (hteq ▸ hQ.2.1)
        rw [if_pos hx₁, if_neg hx₂, List.append_nil,
          if_pos (show x ∈ rowIds (rows₁ ++ rows₂) by
            rw [rowIds_append]; exact List.mem_append.2 (Or.inl hx₁))]
      · rw [if_neg hx₁, List.nil_append]
        by_cases hx₂ : x ∈ rowIds rows₂
        · rw [if_pos hx₂, if_pos (show x ∈ rowIds (rows₁ ++ rows₂) by
            rw [rowIds_append]; exact List.mem_append.2 (Or.inr hx₂))]
        · rw [if_neg hx₂, if_neg (show ¬ x ∈ rowIds (rows₁ ++ rows₂) by
            rw [rowIds_append]
            intro hx
            rcases List.mem_append.1 hx with hmem | hmem
            · exact hx₁ hmem
            · exact hx₂ hmem)]

theorem flt_task : ∀ (fuel : Nat) {tasks : List Task}, NodupIds tasks →
    ∀ (t : Task) (l i : Nat) (rows : List TaskDisplay) (i' : Nat), t ∈ tasks →
    add_task_and_children tasks fuel t l i = some (rows, i') →
    ∀ x : Int, filterParent rows x =
      (if t.parent_task_id = some x then [t] else [])
        ++ (if x ∈ rowIds rows then procChildren tasks x else []) := by
  intro fuel
  induction fuel with
  | zero =>
    intro tasks _ t l i rows i' _ h
    rw [add_task_zero] at h
    exact absurd h (by simp)
  | succ fuel ih =>
    intro tasks hN t l i rows i' ht h x
    have horig := h
    rw [add_task_succ_eq_some] at h
    obtain ⟨rows₁, h₁, rfl⟩ := h
    have hnt : ¬ Relation.TransGen (edge tasks) t t :=
      add_task_no_cycle (fuel + 1) tasks t l i _ i' horig t Relation.ReflTransGen.refl
    have hF := flt_loop_of_task hN (fun t₀ l₀ i₀ rows₀ i₀' ht₀ hc₀ =>
        ih hN t₀ l₀ i₀ rows₀ i₀' ht₀ hc₀)
      (procChildren tasks t.id) (some t.id) (l + 1) (i + 1) rows₁ i'
      (fun c hcmem => ⟨(mem_procChildren.1 hcmem).1, (mem_procChildren.1 hcmem).2⟩)
      (procChildren_nodup hN t.id) h₁ x
    rw [filterParent_cons]
    by_cases hx : t.id = x
    · subst hx
      have htp : ¬ t.parent_task_id = some t.id := by
        intro hcontra
        exact hnt (Relation.TransGen.single ⟨ht, ht, hcontra⟩)
      rw [if_neg htp, List.nil_append, List.nil_append, hF,
        if_pos rfl, if_pos (by rw [rowIds_cons]; exact List.mem_cons_self _ _)]
    · have hsome : ¬ (some t.id : Option Int) = some x := by
        intro hcontra
        exact hx (Option.some.inj hcontra)
      rw [hF, if_neg hsome]
      have hmem : (x ∈ rowIds (⟨t, l, i⟩ :: rows₁)) ↔ x ∈ rowIds rows₁ := by
        rw [rowIds_cons]
        constructor
        · intro hmm
          rcases List.mem_cons.1 hmm with hh | hh
          · exact absurd hh.symm hx
          · exact hh
        · exact fun hh => List.mem_cons_of_mem _ hh
      by_cases hx₁ : x ∈ rowIds rows₁
      · rw [if_pos hx₁, if_pos (hmem.2 hx₁)]
      · rw [if_neg hx₁, if_neg (fun hc => hx₁ (hmem.1 hc))]

theorem add_task_rest_trans {fuel : Nat} {tasks : List Task} {t : Task}
    {l i : Nat} {rows : List TaskDisplay} {i' : Nat} (ht : t ∈ tasks)
    (h : add_task_and_children tasks fuel t l i = some (rows, i')) :
    ∃ rest, rows = ⟨t, l, i⟩ :: rest ∧
      ∀ r ∈ rest, r.task ∈ tasks ∧ Relation.TransGen (edge tasks) t r.task := by
  cases fuel with
  | zero => rw [add_task_zero] at h; exact absurd h (by simp)
  | succ fuel =>
    rw [add_task_succ_eq_some] at h
    obtain ⟨rows₁, h₁, rfl⟩ := h
    refine ⟨rows₁, rfl, ?_⟩
    intro r hr
    obtain ⟨c, hc, hQ⟩ := taskLoop_exists
      (fun c r => r.task ∈ tasks ∧ Relation.ReflTransGen (edge tasks) c r.task)
      (fun c hc l₀ i₀ rows₀ i₀' hcall r₀ hr₀ => by
        have hd := add_task_desc fuel tasks c l₀ i₀ rows₀ i₀'
          (mem_procChildren.1 hc).1 hcall r₀ hr₀
        exact ⟨hd.1, hd.2.1⟩) h₁ r hr
    have hcp := mem_procChildren.1 hc
    have he : edge tasks t c := ⟨ht, hcp.1, hcp.2⟩
    exact ⟨hQ.1, Relation.TransGen.trans_left (Relation.TransGen.single he) hQ.2⟩

theorem filterRoot_cons (r : TaskDisplay) (rows : List TaskDisplay) :
    filterRoot (r :: rows) =
      (if r.task.parent_task_id.isNone then [r.task] else []) ++ filterRoot rows := by
  unfold filterRoot rowTasks
  rw [List.map_cons, List.filter_cons]
  by_cases h : r.task.parent_task_id.isNone
  · simp [h]
  · simp [h]

/-- The root-pointer rows of one subtree: just its head, when the head is
itself parentless; strict descendants always carry a `Some` parent. -/
theorem filterRoot_task {fuel : Nat} {tasks : List Task} {t : Task}
    {l i : Nat} {rows : List TaskDisplay} {i' : Nat} (ht : t ∈ tasks)
    (h : add_task_and_children tasks fuel t l i = some (rows, i')) :
    filterRoot rows = if t.parent_task_id.isNone then [t] else [] := by
  obtain ⟨rest, rfl, hrest⟩ := add_task_rest_trans ht h
  rw [filterRoot_cons]
  have hnil : filterRoot rest = [] := by
    unfold filterRoot rowTasks
    rw [List.filter_eq_nil]
    intro a ha
    obtain ⟨r, hr, rfl⟩ := List.mem_map.1 ha
    obtain ⟨q, _, hq⟩ := Relation.TransGen.tail'_iff.1 (hrest r hr).2
    rw [hq.2.2]
    simp
  rw [hnil, List.append_nil]

theorem filterRoot_loop {tasks : List Task} {fuel : Nat} :
    ∀ (cs : List Task) (l i : Nat) (rows : List TaskDisplay) (i' : Nat),
    (∀ c ∈ cs, c ∈ tasks) →
    taskLoop (fun c l₀ i₀ => add_task_and_children tasks fuel c l₀ i₀)
      cs l i = some (rows, i') →
    filterRoot rows = cs.filter (fun c => c.parent_task_id.isNone) := by
  intro cs
  induction cs with
  | nil =>
    intro l i rows i' _ h
    rw [taskLoop_nil] at h
    simp only [Option.some.injEq, Prod.mk.injEq] at h
    rw [← h.1]
    rfl
  | cons c cs ihl =>
    intro l i rows i' hcs h
    rw [taskLoop_cons_eq_some] at h
    obtain ⟨rows₁, i₁, rows₂, h₁, h₂, rfl⟩ := h
    rw [filterRoot_append,
      filterRoot_task (hcs c (List.mem_cons_self c cs)) h₁,
      ihl l i₁ rows₂ i' (fun d hd => hcs d (List.mem_cons_of_mem c hd)) h₂,
      List.filter_cons]
    by_cases hp : c.parent_task_id.isNone
    · simp [hp]
    · simp [hp]

/-- Rows/tasks ordered by non-decreasing creation timestamp. -/
def sortedByCreated (l : List Task) : Prop :=
  l.Pairwise (fun a b => a.created_at ≤ b.created_at)

/-- The ordering property of one sibling group: all incomplete entries
first, then all completed ones, each partition sorted by creation time. -/
def partitionedSorted (l : List Task) : Prop :=
  l = l.filter (fun u => !u.completed) ++ l.filter (fun u => u.completed)
  ∧ sortedByCreated (l.filter (fun u => !u.completed))
  ∧ sortedByCreated (l.filter (fun u => u.completed))

instance : IsTotal Task (fun a b => a.created_at ≤ b.created_at) :=
  ⟨fun a b => Int.le_total _ _⟩

instance : IsTrans Task (fun a b => a.created_at ≤ b.created_at) :=
  ⟨fun _ _ _ h₁ h₂ => le_trans h₁ h₂⟩

theorem sortedByCreated_sort (l : List Task) :
    sortedByCreated (sortByCreated l) :=
  List.sorted_insertionSort _ l

theorem partitionedSorted_nil : partitionedSorted [] :=
  ⟨rfl, List.Pairwise.nil, List.Pairwise.nil⟩

theorem partitionedSorted_of_parts {A B : List Task}
    (hA : ∀ t ∈ A, t.completed = false) (hB : ∀ t ∈ B, t.completed = true)
    (sA : sortedByCreated A) (sB : sortedByCreated B) :
    partitionedSorted (A ++ B) := by
  have h₁ : (A ++ B).filter (fun u => !u.completed) = A := by
    rw [List.filter_append, List.filter_eq_self.2 (fun t htm => by
        rw [hA t htm]; rfl),
      List.filter_eq_nil.2 (fun t htm => by rw [hB t htm]; simp),
      List.append_nil]
  have h₂ : (A ++ B).filter (fun u => u.completed) = B := by
    rw [List.filter_append, List.filter_eq_nil.2 (fun t htm => by
        rw [hA t htm]; simp),
      List.filter_eq_self.2 (fun t htm => hB t htm),
      List.nil_append]
  exact ⟨by rw [h₁, h₂], by rw [h₁]; exact sA, by rw [h₂]; exact sB⟩

theorem partitionedSorted_procChildren (tasks : List Task) (x : Int) :
    partitionedSorted (procChildren tasks x) := by
  unfold procChildren
  refine partitionedSorted_of_parts ?_ ?_ ?_ ?_
  · intro t htm
    have := List.of_mem_filter htm
    simpa using this
  · intro t htm
    exact List.of_mem_filter htm
  · exact List.Pairwise.filter _ (sortedByCreated_sort _)
  · exact List.Pairwise.filter _ (sortedByCreated_sort _)

theorem partitionedSorted_rootTasks (tasks : List Task) :
    partitionedSorted (rootTasks tasks) := by
  unfold rootTasks
  refine partitionedSorted_of_parts ?_ ?_ ?_ ?_
  · intro t htm
    rw [mem_sortByCreated] at htm
    have := List.of_mem_filter htm
    rw [Bool.and_eq_true] at this
    simpa using this.1
  · intro t htm
    rw [mem_sortByCreated] at htm
    have := List.of_mem_filter htm
    rw [Bool.and_eq_true] at this
    exact this.1
  · exact sortedByCreated_sort _
  · exact sortedByCreated_sort _

/-- C1 (confirmed): in every built display sequence (over a task set with
unique identifiers), the rows restricted to the direct children of any
single parent id — and likewise the rows restricted to the roots — have
every incomplete entry strictly before every completed entry, with
creation timestamps non-decreasing inside each partition. -/
theorem c1_sibling_groups_sorted (tasks : List Task) (fuel : Nat)
    (out : List TaskDisplay) (hN : NodupIds tasks)
    (h : build_task_hierarchy tasks fuel = some out) :
    (∀ x : Int, partitionedSorted (filterParent out x))
    ∧ partitionedSorted (filterRoot out) := by
  rw [build_eq_some] at h
  obtain ⟨i', h⟩ := h
  constructor
  · intro x
    have hF := flt_loop_of_task hN
      (fun t₀ l₀ i₀ rows₀ i₀' ht₀ hc₀ => flt_task fuel hN t₀ l₀ i₀ rows₀ i₀' ht₀ hc₀)
      (rootTasks tasks) none 0 0 out i'
      (fun c hcmem => ⟨(mem_rootTasks.1 hcmem).1, (mem_rootTasks.1 hcmem).2⟩)
      (rootTasks_nodup hN) h x
    rw [hF, if_neg (by simp)]
    by_cases hx : x ∈ rowIds out
    · rw [if_pos hx]
      exact partitionedSorted_procChildren tasks x
    · rw [if_neg hx]
      exact partitionedSorted_nil
  · rw [filterRoot_loop (rootTasks tasks) 0 0 out i'
      (fun c hcmem => (mem_rootTasks.1 hcmem).1) h,
      List.filter_eq_self.2 (fun c hcmem => by
        rw [(mem_rootTasks.1 hcmem).2]; rfl)]
    exact partitionedSorted_rootTasks tasks

/-- Scenario-B-like fixture: T1 incomplete root with completed child T3;
T2 completed root. -/
def demoTasksB : List Task :=
  [demoTask 1 false none 1, demoTask 2 true none 2, demoTask 3 true (some 1) 3]

/-- The display sequence the builder produces for `demoTasksB`. -/
def demoDisplaysB : List TaskDisplay :=
  [⟨demoTask 1 false none 1, 0, 0⟩, ⟨demoTask 3 true (some 1) 3, 1, 1⟩,
    ⟨demoTask 2 true none 2, 0, 2⟩]

/-- Witness for C1 at the three-task fixture, parent id 1. -/
theorem c1_witness :
    partitionedSorted (filterParent demoDisplaysB 1)
    ∧ partitionedSorted (filterRoot demoDisplaysB) :=
  ⟨(c1_sibling_groups_sorted demoTasksB 4 demoDisplaysB
      (by unfold NodupIds; decide) (by decide)).1 1,
    (c1_sibling_groups_sorted demoTasksB 4 demoDisplaysB
      (by unfold NodupIds; decide) (by decide)).2⟩

/-- Rows of sibling subtrees cannot be related by the descendant relation. -/
theorem sibling_block_no_cross {tasks : List Task} (hN : NodupIds tasks)
    {c c' d₁ d₂ : Task} (hc : c ∈ tasks) (hc' : c' ∈ tasks) (hne : c ≠ c')
    (hpar : c.parent_task_id = c'.parent_task_id)
    (hnc : ¬ Relation.TransGen (edge tasks) c c)
    (hnc' : ¬ Relation.TransGen (edge tasks) c' c')
    (r₁ : Relation.ReflTransGen (edge tasks) c d₁)
    (r₂ : Relation.ReflTransGen (edge tasks) c' d₂)
    (ht : Relation.TransGen (edge tasks) d₁ d₂) : False :=
  sibling_disjoint hN hc hc' hne hpar hnc hnc'
    (r₁.trans ht.to_reflTransGen) r₂

/-- Each row of a loop originates in the subtree of one of the loop's
tasks, whose own subtree call succeeded (hence has no cycle through it). -/
theorem loop_origin {tasks : List Task} {fuel : Nat} {cs : List Task}
    {l i : Nat} {rows : List TaskDisplay} {i' : Nat}
    (hcs : ∀ c ∈ cs, c ∈ tasks)
    (h : taskLoop (fun c l₀ i₀ => add_task_and_children tasks fuel c l₀ i₀)
      cs l i = some (rows, i')) :
    ∀ r ∈ rows, ∃ c ∈ cs, r.task ∈ tasks ∧
      Relation.ReflTransGen (edge tasks) c r.task ∧
      ¬ Relation.TransGen (edge tasks) c c :=
  taskLoop_exists
    (fun c r => r.task ∈ tasks ∧
      Relation.ReflTransGen (edge tasks) c r.task ∧
      ¬ Relation.TransGen (edge tasks) c c)
    (fun c hc l₀ i₀ rows₀ i₀' hcall r₀ hr₀ => by
      have hd := add_task_desc fuel tasks c l₀ i₀ rows₀ i₀' (hcs c hc) hcall r₀ hr₀
      exact ⟨hd.1, hd.2.1, add_task_no_cycle fuel tasks c l₀ i₀ rows₀ i₀'
        hcall c Relation.ReflTransGen.refl⟩) h

/-- Loop version of emitted-id uniqueness, given it for the body. -/
theorem rowIds_nodup_loop_of_task {tasks : List Task} (hN : NodupIds tasks)
    {fuel : Nat}
    (htask : ∀ (t : Task) (l i : Nat) (rows : List TaskDisplay) (i' : Nat),
      t ∈ tasks → add_task_and_children tasks fuel t l i = some (rows, i') →
      (rowIds rows).Nodup) :
    ∀ (cs : List Task) (pp : Option Int) (l i : Nat) (rows : List TaskDisplay)
      (i' : Nat),
      (∀ c ∈ cs, c ∈ tasks ∧ c.parent_task_id = pp) → cs.Nodup →
      taskLoop (fun c l₀ i₀ => add_task_and_children tasks fuel c l₀ i₀)
        cs l i = some (rows, i') →
      (rowIds rows).Nodup := by
  intro cs
  induction cs with
  | nil =>
    intro pp l i rows i' _ _ h
    rw [taskLoop_nil] at h
    simp only [Option.some.injEq, Prod.mk.injEq] at h
    rw [← h.1]
    exact List.nodup_nil
  | cons c cs ihl =>
    intro pp l i rows i' hcs hnd h
    rw [taskLoop_cons_eq_some] at h
    obtain ⟨rows₁, i₁, rows₂, h₁, h₂, rfl⟩ := h
    have hc := hcs c (List.mem_cons_self c cs)
    have hnc : ¬ Relation.TransGen (edge tasks) c c :=
      add_task_no_cycle fuel tasks c l i rows₁ i₁ h₁ c Relation.ReflTransGen.refl
    rw [rowIds_append]
    refine List.Nodup.append (htask c l i rows₁ i₁ hc.1 h₁)
      (ihl pp l i₁ rows₂ i' (fun d hd => hcs d (List.mem_cons_of_mem c hd))
        hnd.of_cons h₂) ?_
    rw [List.disjoint_left]
    intro x hx₁ hx₂
    obtain ⟨r₁, hr₁, hid₁⟩ := mem_rowIds.1 hx₁
    obtain ⟨r₂, hr₂, hid₂⟩ := mem_rowIds.1 hx₂
    have hdesc₁ := add_task_desc fuel tasks c l i rows₁ i₁ hc.1 h₁ r₁ hr₁
    obtain ⟨c₂, hcc₂, hm₂, hrt₂, hnc₂⟩ := loop_origin
      (fun d hd => (hcs d (List.mem_cons_of_mem c hd)).1) h₂ r₂ hr₂
    have hteq : r₁.task = r₂.task :=
      id_injective hN hdesc₁.1 hm₂ (by rw [hid₁, hid₂])
    have hne : c ≠ c₂ := by
      intro hceq
      exact (List.nodup_cons.1 hnd).1 (hceq ▸ hcc₂)
    exact sibling_disjoint hN hc.1 (hcs c₂ (List.mem_cons_of_mem c hcc₂)).1
      hne (hc.2.trans (hcs c₂ (List.mem_cons_of_mem c hcc₂)).2.symm)
      hnc hnc₂ hdesc₁.2.1 (hteq ▸ hrt₂)

/-- Emitted task ids of one subtree are pairwise distinct. -/
theorem rowIds_nodup : ∀ (fuel : Nat) {tasks : List Task}, NodupIds tasks →
    ∀ (t : Task) (l i : Nat) (rows : List TaskDisplay) (i' : Nat), t ∈ tasks →
    add_task_and_children tasks fuel t l i = some (rows, i') →
    (rowIds rows).Nodup := by
  intro fuel
  induction fuel with
  | zero =>
    intro tasks _ t l i rows i' _ h
    rw [add_task_zero] at h
    exact absurd h (by simp)
  | succ fuel ih =>
    intro tasks hN t l i rows i' ht h
    have horig := h
    rw [add_task_succ_eq_some] at h
    obtain ⟨rows₁, h₁, rfl⟩ := h
    have hnt : ¬ Relation.TransGen (edge tasks) t t :=
      add_task_no_cycle (fuel + 1) tasks t l i _ i' horig t Relation.ReflTransGen.refl
    rw [rowIds_cons, List.nodup_cons]
    constructor
    · intro hmem
      obtain ⟨r, hr, hid⟩ := mem_rowIds.1 hmem
      obtain ⟨c, hcc, hm, hrt, _⟩ := loop_origin
        (fun d hd => (mem_procChildren.1 hd).1) h₁ r hr
      have hrt' : r.task = t := id_injective hN hm ht hid
      have hcp := mem_procChildren.1 hcc
      have he : edge tasks t c := ⟨ht, hcp.1, hcp.2⟩
      exact hnt (Relation.TransGen.trans_left (Relation.TransGen.single he)
        (hrt' ▸ hrt))
    · exact rowIds_nodup_loop_of_task hN
        (fun t₀ l₀ i₀ rows₀ i₀' ht₀ hc₀ => ih hN t₀ l₀ i₀ rows₀ i₀' ht₀ hc₀)
        (procChildren tasks t.id) (some t.id) (l + 1) (i + 1) rows₁ i'
        (fun d hd => ⟨(mem_procChildren.1 hd).1, (mem_procChildren.1 hd).2⟩)
        (procChildren_nodup hN t.id) h₁

/-- Loop version of the depth bookkeeping: every row is a loop head (at
the loop's level) or has a parent row one level up inside the loop rows. -/
theorem lvl_loop_of_task {tasks : List Task} {fuel : Nat}
    (htask : ∀ (t : Task) (l i : Nat) (rows : List TaskDisplay) (i' : Nat),
      t ∈ tasks → add_task_and_children tasks fuel t l i = some (rows, i') →
      ∀ r ∈ rows, r = ⟨t, l, i⟩ ∨
        ∃ q ∈ rows, r.task.parent_task_id = some q.task.id ∧
          r.level = q.level + 1) :
    ∀ (cs : List Task) (l i : Nat) (rows : List TaskDisplay) (i' : Nat),
      (∀ c ∈ cs, c ∈ tasks) →
      taskLoop (fun c l₀ i₀ => add_task_and_children tasks fuel c l₀ i₀)
        cs l i = some (rows, i') →
      ∀ r ∈ rows, (r.task ∈ cs ∧ r.level = l) ∨
        ∃ q ∈ rows, r.task.parent_task_id = some q.task.id ∧
          r.level = q.level + 1 := by
  intro cs
  induction cs with
  | nil =>
    intro l i rows i' _ h r hr
    rw [taskLoop_nil] at h
    simp only [Option.some.injEq, Prod.mk.injEq] at h
    rw [← h.1] at hr
    exact absurd hr (List.not_mem_nil r)
  | cons c cs ihl =>
    intro l i rows i' hcs h r hr
    rw [taskLoop_cons_eq_some] at h
    obtain ⟨rows₁, i₁, rows₂, h₁, h₂, rfl⟩ := h
    rcases List.mem_append.1 hr with hr₁ | hr₂
    · rcases htask c l i rows₁ i₁ (hcs c (List.mem_cons_self c cs)) h₁ r hr₁ with
        rfl | ⟨q, hq, hpq⟩
      · exact Or.inl ⟨List.mem_cons_self c cs, rfl⟩
      · exact Or.inr ⟨q, List.mem_append.2 (Or.inl hq), hpq⟩
    · rcases ihl l i₁ rows₂ i' (fun d hd => hcs d (List.mem_cons_of_mem c hd))
        h₂ r hr₂ with ⟨hmem, hlvl⟩ | ⟨q, hq, hpq⟩
      · exact Or.inl ⟨List.mem_cons_of_mem c hmem, hlvl⟩
      · exact Or.inr ⟨q, List.mem_append.2 (Or.inr hq), hpq⟩

/-- Depth bookkeeping for one subtree. -/
theorem lvl_task : ∀ (fuel : Nat) {tasks : List Task},
    ∀ (t : Task) (l i : Nat) (rows : List TaskDisplay) (i' : Nat), t ∈ tasks →
    add_task_and_children tasks fuel t l i = some (rows, i') →
    ∀ r ∈ rows, r = ⟨t, l, i⟩ ∨
      ∃ q ∈ rows, r.task.parent_task_id = some q.task.id ∧
        r.level = q.level + 1 := by
  intro fuel
  induction fuel with
  | zero =>
    intro tasks t l i rows i' _ h
    rw [add_task_zero] at h
    exact absurd h (by simp)
  | succ fuel ih =>
    intro tasks t l i rows i' ht h
    rw [add_task_succ_eq_some] at h
    obtain ⟨rows₁, h₁, rfl⟩ := h
    intro r hr
    rcases List.mem_cons.1 hr with rfl | hr₁
    · exact Or.inl rfl
    · rcases lvl_loop_of_task
        (fun t₀ l₀ i₀ rows₀ i₀' ht₀ hc₀ => ih t₀ l₀ i₀ rows₀ i₀' ht₀ hc₀)
        (procChildren tasks t.id) (l + 1) (i + 1) rows₁ i'
        (fun d hd => (mem_procChildren.1 hd).1) h₁ r hr₁ with
        ⟨hmem, hlvl⟩ | ⟨q, hq, hpq⟩
      · refine Or.inr ⟨⟨t, l, i⟩, List.mem_cons_self _ _, ?_, ?_⟩
        · exact (mem_procChildren.1 hmem).2
        · exact hlvl
      · exact Or.inr ⟨q, List.mem_cons_of_mem _ hq, hpq⟩

/-- Loop version of the contiguity property, given it for the body. -/
theorem contig_loop_of_task {tasks : List Task} (hN : NodupIds tasks) {fuel : Nat}
    (htask : ∀ (t : Task) (l i : Nat) (rows : List TaskDisplay) (i' : Nat),
      t ∈ tasks → add_task_and_children tasks fuel t l i = some (rows, i') →
      ∀ j (hj : j < rows.length), ∃ m, j + m < rows.length ∧
        ∀ k (hk : k < rows.length),
          (Relation.TransGen (edge tasks) ((rows.get ⟨j, hj⟩).task)
              ((rows.get ⟨k, hk⟩).task) ↔ (j < k ∧ k ≤ j + m))) :
    ∀ (cs : List Task) (pp : Option Int) (l i : Nat) (rows : List TaskDisplay)
      (i' : Nat),
      (∀ c ∈ cs, c ∈ tasks ∧ c.parent_task_id = pp) → cs.Nodup →
      taskLoop (fun c l₀ i₀ => add_task_and_children tasks fuel c l₀ i₀)
        cs l i = some (rows, i') →
      ∀ j (hj : j < rows.length), ∃ m, j + m < rows.length ∧
        ∀ k (hk : k < rows.length),
          (Relation.TransGen (edge tasks) ((rows.get ⟨j, hj⟩).task)
              ((rows.get ⟨k, hk⟩).task) ↔ (j < k ∧ k ≤ j + m)) := by
  intro cs
  induction cs with
  | nil =>
    intro pp l i rows i' _ _ h j hj
    rw [taskLoop_nil] at h
    simp only [Option.some.injEq, Prod.mk.injEq] at h
    rw [← h.1] at hj
    exact absurd hj (by simp)
  | cons c cs ihl =>
    intro pp l i rows i' hcs hnd h j hj
    rw [taskLoop_cons_eq_some] at h
    obtain ⟨rows₁, i₁, rows₂, h₁, h₂, rfl⟩ := h
    have hc := hcs c (List.mem_cons_self c cs)
    have hnc : ¬ Relation.TransGen (edge tasks) c c :=
      add_task_no_cycle fuel tasks c l i rows₁ i₁ h₁ c Relation.ReflTransGen.refl
    have hlen : (rows₁ ++ rows₂).length = rows₁.length + rows₂.length :=
      List.length_append _ _
    by_cases hjl : j < rows₁.length
    · obtain ⟨m, hm, hiff⟩ := htask c l i rows₁ i₁ hc.1 h₁ j hjl
      refine ⟨m, by omega, ?_⟩
      intro k hk
      by_cases hkl : k < rows₁.length
      · rw [List.get_append j hjl, List.get_append k hkl]
        exact hiff k hkl
      · rw [List.get_append j hjl,
          List.get_append_right rows₁ rows₂ (le_of_not_lt hkl)]
        constructor
        · intro hT
          exfalso
          have hd₁ := add_task_desc fuel tasks c l i rows₁ i₁ hc.1 h₁
            (rows₁.get ⟨j, hjl⟩) (List.get_mem rows₁ j hjl)
          obtain ⟨c₂, hcc₂, hm₂, hrt₂, hnc₂⟩ := loop_origin
            (fun d hd => (hcs d (List.mem_cons_of_mem c hd)).1) h₂
            (rows₂.get ⟨k - rows₁.length, by omega⟩)
            (List.get_mem rows₂ _ _)
          have hne : c ≠ c₂ := by
            intro hceq
            exact (List.nodup_cons.1 hnd).1 (hceq ▸ hcc₂)
          exact sibling_block_no_cross hN hc.1
            (hcs c₂ (List.mem_cons_of_mem c hcc₂)).1 hne
            (hc.2.trans (hcs c₂ (List.mem_cons_of_mem c hcc₂)).2.symm)
            hnc hnc₂ hd₁.2.1 hrt₂ hT
        · intro hk2
          omega
    · have hj₂ : j - rows₁.length < rows₂.length := by omega
      obtain ⟨m, hm, hiff⟩ := ihl pp l i₁ rows₂ i'
        (fun d hd => hcs d (List.mem_cons_of_mem c hd)) hnd.of_cons h₂
        (j - rows₁.length) hj₂
      refine ⟨m, by omega, ?_⟩
      intro k hk
      rw [List.get_append_right rows₁ rows₂ (le_of_not_lt hjl)]
      by_cases hkl : k < rows₁.length
      · rw [List.get_append k hkl]
        constructor
        · intro hT
          exfalso
          obtain ⟨c₂, hcc₂, hm₂, hrt₂, hnc₂⟩ := loop_origin
            (fun d hd => (hcs d (List.mem_cons_of_mem c hd)).1) h₂
            (rows₂.get ⟨j - rows₁.length, hj₂⟩) (List.get_mem rows₂ _ _)
          have hd₁ := add_task_desc fuel tasks c l i rows₁ i₁ hc.1 h₁
            (rows₁.get ⟨k, hkl⟩) (List.get_mem rows₁ k hkl)
          have hne : c₂ ≠ c := by
            intro hceq
            exact (List.nodup_cons.1 hnd).1 (hceq ▸ hcc₂)
          exact sibling_block_no_cross hN
            (hcs c₂ (List.mem_cons_of_mem c hcc₂)).1 hc.1 hne
            ((hcs c₂ (List.mem_cons_of_mem c hcc₂)).2.trans hc.2.symm)
            hnc₂ hnc hrt₂ hd₁.2.1 hT
        · intro hk2
          omega
      · rw [List.get_append_right rows₁ rows₂ (le_of_not_lt hkl)]
        have := hiff (k - rows₁.length) (by omega)
        constructor
        · intro hT
          have h2 := this.1 hT
          omega
        · intro hk2
          exact this.2 (by omega)

/-- Contiguity of emitted descendants within one subtree's rows. -/
theorem contig_task : ∀ (fuel : Nat) {tasks : List Task}, NodupIds tasks →
    ∀ (t : Task) (l i : Nat) (rows : List TaskDisplay) (i' : Nat), t ∈ tasks →
    add_task_and_children tasks fuel t l i = some (rows, i') →
    ∀ j (hj : j < rows.length), ∃ m, j + m < rows.length ∧
      ∀ k (hk : k < rows.length),
        (Relation.TransGen (edge tasks) ((rows.get ⟨j, hj⟩).task)
            ((rows.get ⟨k, hk⟩).task) ↔ (j < k ∧ k ≤ j + m)) := by
  intro fuel
  induction fuel with
  | zero =>
    intro tasks _ t l i rows i' _ h
    rw [add_task_zero] at h
    exact absurd h (by simp)
  | succ fuel ih =>
    intro tasks hN t l i rows i' ht h j hj
    have horig := h
    rw [add_task_succ_eq_some] at h
    obtain ⟨rows₁, h₁, rfl⟩ := h
    have hnt : ¬ Relation.TransGen (edge tasks) t t :=
      add_task_no_cycle (fuel + 1) tasks t l i _ i' horig t Relation.ReflTransGen.refl
    obtain ⟨rest, hsh, hrest⟩ := add_task_rest_trans ht horig
    have hsh' : rest = rows₁ := by
      have := hsh
      simp only [List.cons.injEq] at this
      exact this.2.symm
    subst hsh'
    cases j with
    | zero =>
      refine ⟨rest.length, by simp, ?_⟩
      intro k hk
      cases k with
      | zero =>
        simp only [List.get]
        constructor
        · intro hT
          exact absurd hT hnt
        · intro hk2
          omega
      | succ k' =>
        have hk' : k' < rest.length := by
          simp only [List.length_cons] at hk
          omega
        constructor
        · intro _
          constructor
          · omega
          · simp only [List.length_cons] at hk
            omega
        · intro _
          have hmem : rest.get ⟨k', hk'⟩ ∈ rest := List.get_mem rest k' hk'
          exact (hrest _ hmem).2
    | succ j' =>
      have hj' : j' < rest.length := by
        simp only [List.length_cons] at hj
        omega
      obtain ⟨m, hm, hiff⟩ := contig_loop_of_task hN
        (fun t₀ l₀ i₀ rows₀ i₀' ht₀ hc₀ => ih hN t₀ l₀ i₀ rows₀ i₀' ht₀ hc₀)
        (procChildren tasks t.id) (some t.id) (l + 1) (i + 1) rest i'
        (fun d hd => ⟨(mem_procChildren.1 hd).1, (mem_procChildren.1 hd).2⟩)
        (procChildren_nodup hN t.id) h₁ j' hj'
      refine ⟨m, by simp only [List.length_cons]; omega, ?_⟩
      intro k hk
      cases k with
      | zero =>
        constructor
        · intro hT
          exfalso
          obtain ⟨c, hcc, hm₂, hrt₂, _⟩ := loop_origin
            (fun d hd => (mem_procChildren.1 hd).1) h₁
            (rest.get ⟨j', hj'⟩) (List.get_mem rest j' hj')
          have hcp := mem_procChildren.1 hcc
          have he : edge tasks t c := ⟨ht, hcp.1, hcp.2⟩
          exact hnt (Relation.TransGen.trans_left (Relation.TransGen.single he)
            (hrt₂.trans hT.to_reflTransGen))
        · intro hk2
          omega
      | succ k' =>
        have hk' : k' < rest.length := by
          simp only [List.length_cons] at hk
          omega
        have := hiff k' hk'
        constructor
        · intro hT
          have h2 := this.1 hT
          omega
        · intro hk2
          exact this.2 (by omega)

/-- C2 (confirmed): in every built display sequence (unique ids), (a) for
every row j the rows holding strict descendants of row j's task are exactly
the contiguous block of positions (j, j+m] immediately following it
(pre-order); (b) a row whose task's parent pointer is row j's task id sits
exactly one level deeper than row j; (c) rows of parentless tasks are at
level 0. -/
theorem c2_preorder_structure (tasks : List Task) (fuel : Nat)
    (out : List TaskDisplay) (hN : NodupIds tasks)
    (h : build_task_hierarchy tasks fuel = some out) :
    (∀ j (hj : j < out.length), ∃ m, j + m < out.length ∧
      ∀ k (hk : k < out.length),
        (Relation.TransGen (edge tasks) ((out.get ⟨j, hj⟩).task)
            ((out.get ⟨k, hk⟩).task) ↔ (j < k ∧ k ≤ j + m)))
    ∧ (∀ j k (hj : j < out.length) (hk : k < out.length),
        (out.get ⟨k, hk⟩).task.parent_task_id = some ((out.get ⟨j, hj⟩).task.id) →
        (out.get ⟨k, hk⟩).level = (out.get ⟨j, hj⟩).level + 1)
    ∧ (∀ j (hj : j < out.length),
        (out.get ⟨j, hj⟩).task.parent_task_id = none →
        (out.get ⟨j, hj⟩).level = 0) := by
  rw [build_eq_some] at h
  obtain ⟨i', h⟩ := h
  have hcs : ∀ c ∈ rootTasks tasks, c ∈ tasks ∧ c.parent_task_id = none :=
    fun c hcm => ⟨(mem_rootTasks.1 hcm).1, (mem_rootTasks.1 hcm).2⟩
  refine ⟨?_, ?_, ?_⟩
  · exact contig_loop_of_task hN
      (fun t₀ l₀ i₀ rows₀ i₀' ht₀ hc₀ =>
        contig_task fuel hN t₀ l₀ i₀ rows₀ i₀' ht₀ hc₀)
      (rootTasks tasks) none 0 0 out i' hcs (rootTasks_nodup hN) h
  · intro j k hj hk hpk
    rcases lvl_loop_of_task
        (fun t₀ l₀ i₀ rows₀ i₀' ht₀ hc₀ => lvl_task fuel t₀ l₀ i₀ rows₀ i₀' ht₀ hc₀)
        (rootTasks tasks) 0 0 out i'
        (fun c hcm => (mem_rootTasks.1 hcm).1) h
        (out.get ⟨k, hk⟩) (List.get_mem out k hk) with
      ⟨hmem, _⟩ | ⟨q, hq, hq1, hq2⟩
    · rw [(mem_rootTasks.1 hmem).2] at hpk
      cases hpk
    · have hnod : (rowIds out).Nodup := rowIds_nodup_loop_of_task hN
        (fun t₀ l₀ i₀ rows₀ i₀' ht₀ hc₀ =>
          rowIds_nodup fuel hN t₀ l₀ i₀ rows₀ i₀' ht₀ hc₀)
        (rootTasks tasks) none 0 0 out i' hcs (rootTasks_nodup hN) h
      have hnod' : (out.map (fun r => r.task.id)).Nodup := hnod
      have hid : q.task.id = (out.get ⟨j, hj⟩).task.id :=
        Option.some.inj (hq1.symm.trans hpk)
      have hqe : q = out.get ⟨j, hj⟩ :=
        List.inj_on_of_nodup_map hnod' hq (List.get_mem out j hj) hid
      rw [hq2, hqe]
  · intro j hj hpnone
    rcases lvl_loop_of_task
        (fun t₀ l₀ i₀ rows₀ i₀' ht₀ hc₀ => lvl_task fuel t₀ l₀ i₀ rows₀ i₀' ht₀ hc₀)
        (rootTasks tasks) 0 0 out i'
        (fun c hcm => (mem_rootTasks.1 hcm).1) h
        (out.get ⟨j, hj⟩) (List.get_mem out j hj) with
      ⟨_, hlvl⟩ | ⟨q, _, hq1, _⟩
    · exact hlvl
    · rw [hpnone] at hq1
      cases hq1

/-- Witness for C2 at the three-task fixture: T3's row (position 1) lies
one level below its parent T1's row (position 0); T2's row (position 2) is
a root row at level 0. -/
theorem c2_witness :
    (demoDisplaysB.get ⟨1, by decide⟩).level =
      (demoDisplaysB.get ⟨0, by decide⟩).level + 1
    ∧ (demoDisplaysB.get ⟨2, by decide⟩).level = 0 := by
  have h := c2_preorder_structure demoTasksB 4 demoDisplaysB
    (by unfold NodupIds; decide) (by decide)
  exact ⟨h.2.1 0 1 (by decide) (by decide) (by decide),
    h.2.2 2 (by decide) (by decide)⟩

end Todo
